import Mathlib

/-!
Verification of the IOSANS workflow-execution core against its specification.

The definitions below are shallow embeddings of the JavaScript sources:
  - SchedulerService.js   (cron matching, trigger gating)
  - App.jsx               (the dashboard scheduler tick)
  - ToolCallingService.js (ReAct parsing and tool dispatch; both variants)
  - workflowStore.js      (addEdge / loadWorkflow)
  - executionStore.js     (node results, edge snapshots)
  - ExecutionEngine.js    (graph building, merge synchronization, input
    gathering, conditional routing, level execution)

JavaScript numbers are modelled as Int where the code can go negative and
Nat otherwise; `undefined`/`null` become Option; thrown exceptions become
Except values; JS Map/Set become association lists / dedup lists that keep
insertion order, matching JS iteration order.
-/

namespace Iosans

/-- Universe of runtime values flowing between nodes (JSON-like). -/
inductive Val where
  | vnull : Val
  | vbool : Bool → Val
  | vint : Int → Val
  | vstr : String → Val
  | varr : List Val → Val
  | vobj : List (String × Val) → Val
deriving Repr, Inhabited

/-- JS Map.get. -/
def mapGet (m : List (String × α)) (k : String) : Option α :=
  (m.find? (fun p => p.1 == k)).map (fun p => p.2)

/-- JS Map.set: overwrite in place when the key exists, append otherwise
(insertion order is preserved, as in JS). -/
def mapSet (m : List (String × α)) (k : String) (v : α) : List (String × α) :=
  if m.any (fun p => p.1 == k) then
    m.map (fun p => if p.1 == k then (k, v) else p)
  else m ++ [(k, v)]

/-- JS Set.add on a dedup list kept in insertion order. -/
def setInsert (l : List String) (x : String) : List String :=
  if l.contains x then l else l ++ [x]

/-- Dedup a list of keys keeping first occurrences (JS Map/Set key order). -/
def dedupFirst (l : List String) : List String :=
  l.foldl setInsert []

/-!
## CronMatcher (SchedulerService.js)

The matcher works on the characters of each field, so the field grammar is
modelled on `List Char`, where the length-decreasing behaviour of splitting
is provable.
-/

/-- Splitting a character list at every occurrence of a separator
(the JS `"a,b".split(",")` behaviour, including empty chunks). -/
def splitOnChar (sep : Char) : List Char → List (List Char)
  | [] => [[]]
  | c :: rest =>
    let r := splitOnChar sep rest
    if c = sep then [] :: r
    else
      match r with
      | [] => [[c]]
      | h :: t => (c :: h) :: t


/-- JS `parseInt(s, 10)`: skip leading whitespace, optional sign, then the
maximal run of decimal digits; `none` models NaN (no digits found). Trailing
garbage is ignored, exactly as in JS. -/
def parseIntJs (cs : List Char) : Option Int :=
  let cs1 := cs.dropWhile (fun c => c.isWhitespace)
  let neg : Bool := cs1.headD 'x' = '-'
  let rest : List Char :=
    if cs1.headD 'x' = '-' || cs1.headD 'x' = '+' then cs1.tail else cs1
  let digits := rest.takeWhile (fun c => c.isDigit)
  if digits.isEmpty then none
  else
    let mag : Int := Int.ofNat (digits.foldl (fun a c => a * 10 + (c.toNat - 48)) 0)
    some (if neg then -mag else mag)

/-- Undo a character split: `joinSep sep (splitOnChar sep cs) = cs`. -/
def joinSep (sep : Char) : List (List Char) → List Char
  | [] => []
  | [l] => l
  | l :: rest => l ++ sep :: joinSep sep rest

/-- JS `a % b` for integers: NaN (`none`) when `b = 0`, otherwise the
truncated remainder (sign of the dividend), i.e. `Int.tmod`. -/
def jsMod (a b : Int) : Option Int :=
  if b = 0 then none else some (Int.tmod a b)

/-- Body of SchedulerService._checkPart, on the characters of one cron field,
fuelled so that the kernel can evaluate it. The checks appear in source
order: `*`, comma list, step, range, literal. The recursion of the source is
on sublists produced by splitting, which strictly shrink the field, so any
fuel no smaller than the field length yields the source's fixpoint
(`checkPartAux_congr` below); `checkPart` starts from exactly that fuel. -/
def checkPartAux (value minB maxB : Int) : Nat → List Char → Bool
  | 0, _ => false
  | fuel + 1, part =>
    if part = ['*'] then true
    else if part.contains ',' then
      ((splitOnChar ',' part).any fun p => checkPartAux value minB maxB fuel p)
    else if part.contains '/' then
      -- const [range, stepStr] = part.split("/"); inside this branch the
      -- split always has at least two chunks, so the [] defaults are inert
      match parseIntJs (((splitOnChar '/' part).drop 1).headD []) with
      | none => false
      | some step =>
        if (splitOnChar '/' part).headD [] = ['*'] then
          jsMod (value - minB) step == some 0
        else
          checkPartAux value minB maxB fuel ((splitOnChar '/' part).headD []) &&
          jsMod value step == some 0
    else if part.contains '-' then
      -- const [start, end] = part.split("-").map(parseInt)
      match parseIntJs ((splitOnChar '-' part).headD []),
            parseIntJs (((splitOnChar '-' part).drop 1).headD []) with
      | some s, some e => decide (s ≤ value) && decide (value ≤ e)
      | _, _ => false
    else parseIntJs part == some value


/-- SchedulerService._checkPart. -/
def checkPart (value minB maxB : Int) (part : List Char) : Bool :=
  checkPartAux value minB maxB part.length part

/-- The five local-time components the matcher reads off a JS `Date`
(`getMinutes`, `getHours`, `getDate`, `getMonth() + 1`, `getDay`). -/
structure JsDate where
  minutes : Int
  hours : Int
  dayOfMonth : Int
  month : Int
  dayOfWeek : Int
deriving Repr, DecidableEq

/-- Whitespace split discarding empty chunks: observably equal to the JS
`cron.trim().split(/\s+/)` for the purposes of the matcher (for an all-blank
string JS yields a single empty field, here the list is empty; both fail the
five-field test below). -/
def wsSplitAux : List Char → List Char → List (List Char)
  | [], acc => if acc.isEmpty then [] else [acc.reverse]
  | c :: rest, acc =>
    if c.isWhitespace then
      if acc.isEmpty then wsSplitAux rest []
      else acc.reverse :: wsSplitAux rest []
    else wsSplitAux rest (c :: acc)

def wsSplit (cs : List Char) : List (List Char) := wsSplitAux cs []

/-- SchedulerService.matchesCron. Field order: minute, hour, day of month,
month (1-12), day of week (0=Sunday). -/
def matchesCron (cron : String) (d : JsDate) : Bool :=
  let parts := wsSplit cron.data
  if parts.length ≠ 5 then false
  else
    let current : List (Int × Int × Int) :=
      [(d.minutes, 0, 59), (d.hours, 0, 23), (d.dayOfMonth, 1, 31),
       (d.month, 1, 12), (d.dayOfWeek, 0, 6)]
    (parts.zip current).all fun pc => checkPart pc.2.1 pc.2.2.1 pc.2.2.2 pc.1

/-- Per-node `data` configuration keys the embedded components read. -/
structure NodeData where
  enabled : Bool
  cronExpression : Option String
  mergeStrategy : Option String
deriving Repr, DecidableEq

/-- SchedulerService.shouldTrigger: requires truthy `data`, truthy
`data.enabled` and a truthy (non-empty) `data.cronExpression`. -/
def shouldTrigger (data? : Option NodeData) (now : JsDate) : Bool :=
  match data? with
  | none => false
  | some d =>
    if !d.enabled then false
    else
      match d.cronExpression with
      | none => false
      | some "" => false
      | some e => matchesCron e now

/-!
## Scheduler tick (App.jsx, Dashboard scheduler useEffect)

One interval callback: compute the current absolute minute; when it is
strictly greater than the last processed minute, scan the nodes and let the
first matching scheduleTrigger start a run, then advance the last processed
minute unconditionally.
-/

/-- A workflow node as the stores hold it. -/
structure Node where
  id : String
  type : String
  data : Option NodeData
deriving Repr, DecidableEq

/-- The forEach with the `triggered` flag keeps only the first node that is a
scheduleTrigger and passes shouldTrigger. -/
def schedulerScan (nodes : List Node) (now : JsDate) : Option Node :=
  nodes.find? fun n => n.type == "scheduleTrigger" && shouldTrigger n.data now

/-- One tick of the Dashboard scheduler loop: returns the new
`lastRunRef.current` and the id of the node that initiated a run, if any. -/
def schedulerTick (lastRun : Nat) (nodes : List Node) (now : JsDate)
    (currentMinute : Nat) : Nat × Option String :=
  if currentMinute > lastRun then
    (currentMinute, (schedulerScan nodes now).map fun n => n.id)
  else (lastRun, none)

/-!
## ReAct response parsing (ToolCallingService.js and its unnamed variant)

The anchored multiline regex patterns are modelled on the line structure of
the reply. `JSON.parse` is a platform builtin and is passed in as an oracle
`jsonParse : String → Option Val` (`none` models a thrown SyntaxError).
-/

/-- JS `String.prototype.trim`: strip whitespace from both ends. -/
def trimJs (cs : List Char) : List Char :=
  ((cs.dropWhile Char.isWhitespace).reverse.dropWhile Char.isWhitespace).reverse

/-- The lines of the reply, as the `m` flag anchors see them. -/
def textLines (text : String) : List (List Char) :=
  splitOnChar '\n' text.data

/-- First line matching an anchored single-line pattern
`^<pre>\s*(.+)$` with the `m` flag, returning the capture after the
`.trim()` the callers apply. The `(.+)` requires at least one character
after the literal prefix. -/
def matchPrefixLine (pre : List Char) (text : String) : Option (List Char) :=
  ((textLines text).find? fun l =>
      pre.isPrefixOf l && decide (pre.length < l.length)).map
    fun l => trimJs (l.drop pre.length)

/-- Rejoin lines with the newlines they were split at. -/
def joinLines : List (List Char) → List Char
  | [] => []
  | [l] => l
  | l :: rest => l ++ '\n' :: joinLines rest

/-- Everything from just after the first line-anchored occurrence of `pre`
to the end of the text. -/
def afterFirst (pre : List Char) : List (List Char) → Option (List Char)
  | [] => none
  | l :: rest =>
    if pre.isPrefixOf l then some (joinLines (l.drop pre.length :: rest))
    else afterFirst pre rest

/-- The `^Final Answer:\s*([\s\S]+)$` multiline match: succeeds when a line
starts with the literal and at least one character (of any kind) follows
before the end of the text; the capture runs to the end of the text and the
callers trim it. -/
def finalAnswerMatch (text : String) : Option (List Char) :=
  match afterFirst ("Final Answer:".data) (textLines text) with
  | none => none
  | some rem => if rem.isEmpty then none else some (trimJs rem)

/-- The `^Thought:\s*([\s\S]+?)(?=\n(?:Action|Final Answer)|$)` match. The
lazy capture stops at the first line end after the literal, so the capture is
the remainder of the Thought line (the rare case of an empty remainder, where
the regex would continue past the newline, is not exercised by any theorem
below). -/
def thoughtMatch (text : String) : Option (List Char) :=
  ((textLines text).find? fun l =>
      "Thought:".data.isPrefixOf l && decide (8 < l.length)).map
    fun l => trimJs (l.drop 8)

/-- A parsed ReAct step (engine ToolCallingService._parseReActResponse). -/
inductive ReStep where
  | answer : String → ReStep
  | action : String → Val → String → ReStep
  | thought : String → ReStep
deriving Repr

/-- ToolCallingService._parseReActResponse (src/src/engine/ToolCallingService.js):
Final Answer first, then Action; a non-JSON Action Input falls back to the raw
trimmed STRING; a missing Action Input line yields the empty object. -/
def parseReActResponse (jsonParse : List Char → Option Val) (text : String) : ReStep :=
  match finalAnswerMatch text with
  | some content => .answer (String.mk content)
  | none =>
    match matchPrefixLine "Action:".data text with
    | some toolName =>
      let toolInput : Val :=
        match matchPrefixLine "Action Input:".data text with
        | none => .vobj []
        | some raw =>
          match jsonParse raw with
          | some v => v
          | none => .vstr (String.mk raw)
      .action (String.mk toolName) toolInput text
    | none => .thought (String.mk ((thoughtMatch text).getD text.data))

/-- Result record of the unnamed variant's _parseResponse. -/
structure ParsedResponse where
  thought : Option String
  action : Option String
  actionInput : Option Val
  finalAnswer : Option String

/-- The variant ToolCallingService._parseResponse (src/unnamed/part_015):
identical matching, but a non-JSON Action Input is wrapped as
an object with the single key "input". -/
def parseResponseVariant (jsonParse : List Char → Option Val) (text : String) :
    ParsedResponse :=
  let th := (thoughtMatch text).map String.mk
  match finalAnswerMatch text with
  | some fa => ⟨th, none, none, some (String.mk fa)⟩
  | none =>
    match matchPrefixLine "Action:".data text with
    | some a =>
      let ai : Option Val :=
        match matchPrefixLine "Action Input:".data text with
        | none => none
        | some raw =>
          match jsonParse raw with
          | some v => some v
          | none => some (.vobj [("input", .vstr (String.mk raw))])
      ⟨th, some (String.mk a), ai, none⟩
    | none => ⟨th, none, none, none⟩

/-- A tiny concrete instance of the JSON oracle, agreeing with
`JSON.parse` on the literals the closed theorems below evaluate:
null/true/false, decimal integers and quote-delimited strings without inner
quotes succeed; everything else fails. -/
def jsonParseLite (cs : List Char) : Option Val :=
  let t := trimJs cs
  if t = "null".data then some .vnull
  else if t = "true".data then some (.vbool true)
  else if t = "false".data then some (.vbool false)
  else if !t.isEmpty && t.all (fun c => c.isDigit) then
    some (.vint (Int.ofNat (t.foldl (fun a c => a * 10 + (c.toNat - 48)) 0)))
  else
    match t with
    | '\x22' :: rest =>
      if !rest.isEmpty && rest.dropLast.all (fun c => c != '\x22') &&
          rest.getLast? == some '\x22' then
        some (.vstr (String.mk rest.dropLast))
      else none
    | _ => none

/-!
## Tool dispatch (ToolCallingService._executeTool / runTool)
-/

/-- The object `\x7b error: msg \x7d` the dispatcher returns on failure. -/
def errObj (msg : String) : Val := .vobj [("error", .vstr msg)]

/-- The pieces of ToolCallingService state that _executeTool consults.
A callback or executor that throws is modelled as returning `.error`. -/
structure ToolService where
  toolNodeMap : List (String × String)
  executeNodeCallback : Option (String → Val → Except String Val)
  getExecutor : String → Option (Val → Except String Val)

/-- ToolCallingService._executeTool: a connected tool node is executed through
the engine callback (errors caught and prefixed), otherwise a registered
executor is tried (errors caught verbatim), otherwise a not-found error
object. Every path returns a value; nothing escapes. -/
def executeTool (svc : ToolService) (toolName : String) (toolInput : Val) : Val :=
  match mapGet svc.toolNodeMap toolName, svc.executeNodeCallback with
  | some nodeId, some cb =>
    match cb nodeId toolInput with
    | .ok r => r
    | .error m => errObj ("Tool execution failed: " ++ m)
  | _, _ =>
    match svc.getExecutor toolName with
    | none => errObj ("Tool \x22" ++ toolName ++ "\x22 not found")
    | some ex =>
      match ex toolInput with
      | .ok r => r
      | .error m => errObj m

/-- ToolCallingService.runTool delegates to _executeTool. -/
def runTool (svc : ToolService) (toolName : String) (toolInput : Val) : Val :=
  executeTool svc toolName toolInput

/-!
## WorkflowStore (workflowStore.js)
-/

/-- An edge record. -/
structure WEdge where
  id : String
  source : String
  sourceHandle : Option String
  target : String
  targetHandle : Option String
deriving Repr, DecidableEq

/-- The duplicate test used by addEdge: equality of the
(source, sourceHandle, target, targetHandle) quadruple. -/
def sameQuad (a b : WEdge) : Bool :=
  a.source == b.source && a.sourceHandle == b.sourceHandle &&
  a.target == b.target && a.targetHandle == b.targetHandle

/-- The store state (persisted fields plus selections). -/
structure WorkflowState where
  nodes : List Node
  edges : List WEdge
  selectedNodeIds : List String
  selectedEdgeIds : List String
deriving Repr, DecidableEq

/-- workflowStore.addEdge: refuse only an exact quadruple duplicate, else
append. The edge arrives with its id (the `edge.id || uuidv4()` default is
outside the store's control). -/
def addEdge (st : WorkflowState) (e : WEdge) : WorkflowState :=
  if st.edges.any (fun x => sameQuad x e) then st
  else { st with edges := st.edges ++ [e] }

/-- An import document; absent arrays default to []. -/
structure WorkflowDoc where
  nodes : Option (List Node)
  edges : Option (List WEdge)
deriving Repr, DecidableEq

/-- workflowStore.loadWorkflow: installs the document as given and clears the
selections. No validation of any kind is performed. -/
def loadWorkflow (st : WorkflowState) (wf : WorkflowDoc) : WorkflowState :=
  { st with
    nodes := wf.nodes.getD []
    edges := wf.edges.getD []
    selectedNodeIds := []
    selectedEdgeIds := [] }

/-!
## ExecutionEngine (src/src/engine/ExecutionEngine.js, the handle-aware
version) and executionStore (src/src/store/executionStore.js)

The engine runs level tasks concurrently on the JS event loop; every task
body has two await points that matter for interleaving: obtaining the merge
readiness check, and the executor call itself. The semantics below is a
small-step machine driven by a list of events, each event being one of the
two halves of a node task:

  - `start n` consumes one queued check for n, performs the merge-readiness
    gate, gathers inputs, calls setNodeRunning and fixes the executor's
    outcome (validate failure and execute throw both become `.err`);
  - `finish n` commits the oldest in-flight outcome for n: setNodeSuccess
    plus edge snapshots plus enqueueing the conditionally filtered
    downstream checks, or setNodeError.

Any event list is a possible interleaving; events whose guard fails leave the
configuration unchanged (no such callback exists at that point in the real
run). Abort and pause are outside the claims and not modelled; the
`pendingMerges` bookkeeping map is written but never read by any decision in
the source, so it is omitted.
-/

/-- A workflow snapshot as passed to executeGraph. -/
structure Workflow where
  nodes : List Node
  edges : List WEdge
deriving Repr, DecidableEq

def hasNodeId (wf : Workflow) (nid : String) : Bool :=
  wf.nodes.any fun n => n.id == nid

/-- Edges kept by _buildExecutionGraph (both endpoints must resolve). -/
def graphEdges (wf : Workflow) : List WEdge :=
  wf.edges.filter fun e => hasNodeId wf e.source && hasNodeId wf e.target

/-- entry.incomingEdges of a node: full edge records in edge-list order. -/
def incomingEdges (wf : Workflow) (nid : String) : List WEdge :=
  (graphEdges wf).filter fun e => e.target == nid

/-- entry.outgoing: a JS Set of target ids in insertion order. -/
def outgoingOf (wf : Workflow) (nid : String) : List String :=
  ((graphEdges wf).filter fun e => e.source == nid).foldl
    (fun acc e => setInsert acc e.target) []

/-- entry.incoming: a JS Set of source ids in insertion order. -/
def incomingOf (wf : Workflow) (nid : String) : List String :=
  (incomingEdges wf nid).foldl (fun acc e => setInsert acc e.source) []

/-- graph.get(nid).node — with duplicate ids the later Map.set wins. -/
def lookupNode (wf : Workflow) (nid : String) : Option Node :=
  wf.nodes.reverse.find? fun n => n.id == nid

/-- _findStartNodes: graph keys (first-occurrence order) with empty incoming. -/
def startNodes (wf : Workflow) : List String :=
  (dedupFirst (wf.nodes.map fun n => n.id)).filter fun nid => incomingOf wf nid = []

/-- executionStore node statuses. -/
inductive Status where
  | pending
  | running
  | success
  | error
deriving Repr, DecidableEq

/-- One executionStore nodeResults entry (timestamps are not modelled). -/
structure NodeResult where
  status : Status
  output : Option Val
  errMsg : Option String
deriving Repr

/-- The spread `\x7b ...existing \x7d` base used by the store setters when no
entry exists yet. -/
def emptyResult : NodeResult := ⟨Status.pending, none, none⟩

/-- The resolved merge strategy: `entry.node.data.mergeStrategy || "object"`
(the empty string is falsy in JS). -/
def resolvedStrategy (d : NodeData) : String :=
  match d.mergeStrategy with
  | none => "object"
  | some "" => "object"
  | some s => s

/-- The `ready` component of _handleMergeNode: count the incoming sources
whose stored status is success; `first`/`race` need one, everything else
needs all. A merge node with no `data` at all makes the source throw on the
property access; that case is modelled as the gate not passing and is not
exercised by any theorem. -/
def handleMergeNodeReady (wf : Workflow) (results : List (String × NodeResult))
    (nid : String) (node : Node) : Bool :=
  match node.data with
  | none => false
  | some d =>
    let inc := incomingOf wf nid
    let completed := inc.countP fun s =>
      match mapGet results s with
      | some r => r.status == Status.success
      | none => false
    let strategy := resolvedStrategy d
    if strategy == "first" || strategy == "race" then decide (0 < completed)
    else completed == inc.length

/-- What _gatherInputs hands the executor: the single unwrapped value, or
the `\x7b sourceId → output \x7d` object. -/
inductive Gathered where
  | single : Option Val → Gathered
  | multi : List (String × Option Val) → Gathered
deriving Repr

/-- ExecutionEngine._gatherInputs: fold the incoming Set, keeping the outputs
of sources whose status is success; unwrap when exactly one key resulted. -/
def gatherInputs (wf : Workflow) (nid : String)
    (results : List (String × NodeResult)) : Gathered :=
  let pairs := (incomingOf wf nid).foldl
    (fun acc s =>
      match mapGet results s with
      | some r => if r.status == Status.success then mapSet acc s r.output else acc
      | none => acc)
    []
  match pairs with
  | [(_, v)] => .single v
  | _ => .multi pairs

/-- The conditional-routing filter applied to `downstreamIds` after a node
succeeds: with an activeHandles array present, keep a target only when the
FIRST incoming edge of that target whose source is this node carries a
sourceHandle contained in the array. Without the array nothing is filtered. -/
def filterDownstream (wf : Workflow) (nid : String)
    (activeHandles : Option (List String)) (ds : List String) : List String :=
  match activeHandles with
  | none => ds
  | some hs =>
    ds.filter fun t =>
      match (incomingEdges wf t).find? (fun e => e.source == nid) with
      | some e =>
        match e.sourceHandle with
        | some h => hs.contains h
        | none => false
      | none => false

/-- The edge-snapshot loop run when a node succeeds: for every outgoing
target, look for an edge with that target — but in the node's own
incomingEdges list, as the source does. -/
def writeSnapshots (wf : Workflow) (nid : String) (out : Option Val)
    (snaps : List (String × Option Val)) : List (String × Option Val) :=
  (outgoingOf wf nid).foldl
    (fun acc targetId =>
      match (incomingEdges wf nid).find? (fun e => e.target == targetId) with
      | some e => mapSet acc e.id out
      | none => acc)
    snaps

/-- The fixed result of one executor invocation: validate failure and an
execute throw both surface as `.err`; success carries `result.output` and
`result.metadata.activeHandles` when that is an array. -/
inductive Outcome where
  | ok : Option Val → Option (List String) → Outcome
  | err : String → Outcome
deriving Repr

/-- The environment a run executes against: which node types have a
registered executor, and what one invocation of a node on given inputs
does. -/
structure EngineOracle where
  hasExecutor : String → Bool
  run : String → Gathered → Outcome

/-- A run configuration: the executionStore pieces the claims talk about,
the queue of pending node checks, and the in-flight executions. The
startedLog records the setNodeRunning calls in order (mirrored in the store
log as the "Started execution" entries). -/
structure Config where
  results : List (String × NodeResult)
  snapshots : List (String × Option Val)
  startedLog : List String
  tasks : List String
  inFlight : List (String × Outcome)
deriving Repr

/-- Remove the oldest in-flight entry for a node. -/
def eraseFirstKey : List (String × Outcome) → String → List (String × Outcome)
  | [], _ => []
  | p :: rest, k => if p.1 == k then rest else p :: eraseFirstKey rest k

/-- The two halves of one node task. -/
inductive Ev where
  | start : String → Ev
  | finish : String → Ev
deriving Repr, DecidableEq

/-- One scheduling event (see the section comment). -/
def applyEv (wf : Workflow) (O : EngineOracle) (c : Config) : Ev → Config
  | .start n =>
    if c.tasks.contains n then
      let c1 := { c with tasks := c.tasks.erase n }
      match lookupNode wf n with
      | none => c1
      | some node =>
        if node.type == "merge" && !handleMergeNodeReady wf c1.results n node then c1
        else if !O.hasExecutor node.type then c1
        else
          let g := gatherInputs wf n c1.results
          let old := (mapGet c1.results n).getD emptyResult
          { c1 with
            results := mapSet c1.results n { old with status := Status.running }
            startedLog := c1.startedLog ++ [n]
            inFlight := c1.inFlight ++ [(n, O.run n g)] }
    else c
  | .finish n =>
    match (c.inFlight.find? fun p => p.1 == n) with
    | none => c
    | some p =>
      let c1 := { c with inFlight := eraseFirstKey c.inFlight n }
      let old := (mapGet c1.results n).getD emptyResult
      match p.2 with
      | .err m =>
        { c1 with
          results := mapSet c1.results n
            { old with status := Status.error, output := none, errMsg := some m } }
      | .ok out handles =>
        { c1 with
          results := mapSet c1.results n
            { old with status := Status.success, output := out, errMsg := none }
          snapshots := writeSnapshots wf n out c1.snapshots
          tasks := c1.tasks ++ filterDownstream wf n handles (outgoingOf wf n) }

/-- startExecution plus the initial level of start nodes. -/
def initConfig (wf : Workflow) : Config :=
  ⟨[], [], [], startNodes wf, []⟩

/-- Replay a whole interleaving. -/
def replay (wf : Workflow) (O : EngineOracle) (evs : List Ev) : Config :=
  evs.foldl (applyEv wf O) (initConfig wf)

/-- The status the store reports for a node. -/
def statusOf (c : Config) (n : String) : Option Status :=
  (mapGet c.results n).map fun r => r.status

/-- Whether a stored result for the node exists and reads success — the test
both _handleMergeNode and _gatherInputs apply to an upstream node. -/
def isSuccessIn (results : List (String × NodeResult)) (s : String) : Bool :=
  match mapGet results s with
  | some r => r.status == Status.success
  | none => false

/-!
## The cron grammar of the specification

These definitions follow the spec's words (§4.2): a field is `*`, a literal
integer, a range `a-b`, a step `*/n` or `a-b/n`, or a comma list of those.
They exist to be compared with the source's `checkPart`; nothing here is
translated from the code.
-/

/-- A canonical unsigned decimal numeral. -/
def isNumeral (cs : List Char) : Bool := !cs.isEmpty && cs.all Char.isDigit

/-- Value of a decimal numeral. -/
def numVal (cs : List Char) : Nat :=
  cs.foldl (fun a c => a * 10 + (c.toNat - 48)) 0

/-- One comma-free item of the grammar. -/
inductive CronAtom where
  | star : CronAtom
  | lit : Nat → CronAtom
  | range : Nat → Nat → CronAtom
  | starStep : Nat → CronAtom
  | rangeStep : Nat → Nat → Nat → CronAtom
deriving Repr, DecidableEq

/-- A whole field: a single item or a comma list of at least two items. -/
inductive CronField where
  | one : CronAtom → CronField
  | many : List CronAtom → CronField
deriving Repr, DecidableEq

/-- Read one comma-free grammar item off a chunk; steps require a non-zero
step count to be well-formed. -/
def parseAtom (cs : List Char) : Option CronAtom :=
  if cs = ['*'] then some .star
  else if isNumeral cs then some (.lit (numVal cs))
  else if (splitOnChar '/' cs).length = 2 then
    if isNumeral (((splitOnChar '/' cs).drop 1).headD []) &&
        decide (numVal (((splitOnChar '/' cs).drop 1).headD []) ≠ 0) then
      if (splitOnChar '/' cs).headD [] = ['*'] then
        some (.starStep (numVal (((splitOnChar '/' cs).drop 1).headD [])))
      else if (splitOnChar '-' ((splitOnChar '/' cs).headD [])).length = 2 then
        if isNumeral ((splitOnChar '-' ((splitOnChar '/' cs).headD [])).headD []) &&
            isNumeral (((splitOnChar '-' ((splitOnChar '/' cs).headD [])).drop 1).headD []) then
          some (.rangeStep
            (numVal ((splitOnChar '-' ((splitOnChar '/' cs).headD [])).headD []))
            (numVal (((splitOnChar '-' ((splitOnChar '/' cs).headD [])).drop 1).headD []))
            (numVal (((splitOnChar '/' cs).drop 1).headD [])))
        else none
      else none
    else none
  else if (splitOnChar '/' cs).length = 1 ∧ (splitOnChar '-' cs).length = 2 then
    if isNumeral ((splitOnChar '-' cs).headD []) &&
        isNumeral (((splitOnChar '-' cs).drop 1).headD []) then
      some (.range (numVal ((splitOnChar '-' cs).headD []))
        (numVal (((splitOnChar '-' cs).drop 1).headD [])))
    else none
  else none

/-- Collect `some` results, failing on any `none`. -/
def allSome : List (Option CronAtom) → Option (List CronAtom)
  | [] => some []
  | none :: _ => none
  | some a :: rest => (allSome rest).map fun l => a :: l

/-- Read a whole field off its characters: a single comma-free item, or a
comma list of them. -/
def parseField (cs : List Char) : Option CronField :=
  if (splitOnChar ',' cs).length = 1 then
    (parseAtom ((splitOnChar ',' cs).headD [])).map .one
  else
    (allSome ((splitOnChar ',' cs).map parseAtom)).map .many

/-- The field semantics the spec describes, over a parsed item.
`minB` is the lower bound of the field's range (steps count from it). -/
def atomMatches (v minB : Int) : CronAtom → Bool
  | .star => true
  | .lit n => v == Int.ofNat n
  | .range a b => decide ((a : Int) ≤ v) && decide (v ≤ (b : Int))
  | .starStep s => Int.tmod (v - minB) (Int.ofNat s) == 0
  | .rangeStep a b s =>
    (decide ((a : Int) ≤ v) && decide (v ≤ (b : Int))) &&
    Int.tmod v (Int.ofNat s) == 0

def fieldMatches (v minB : Int) : CronField → Bool
  | .one a => atomMatches v minB a
  | .many as => as.any (atomMatches v minB)

/-- A cron expression is grammatically well formed when it has exactly five
fields and each parses. -/
def wellFormedCron (cron : String) : Bool :=
  (wsSplit cron.data).length == 5 &&
  (wsSplit cron.data).all fun p => (parseField p).isSome

/-!
## Concrete fixtures referenced by the theorems
-/

/-- 2025-01-01T10:30 local time (a Wednesday). -/
def dWed : JsDate := ⟨30, 10, 1, 1, 3⟩

/-- 2025-01-04T09:00 local time (a Saturday). -/
def dSat : JsDate := ⟨0, 9, 4, 1, 6⟩

/-- 2025-01-06T09:00 local time (a Monday). -/
def dMon : JsDate := ⟨0, 9, 6, 1, 1⟩

/-- Any timestamp at minute 7 (2025-01-01T00:07 local, a Wednesday). -/
def dMin7 : JsDate := ⟨7, 0, 1, 1, 3⟩

/-- A data object with no recognized keys set (`\x7b\x7d` in the editor). -/
def emptyData : NodeData := ⟨false, none, none⟩

/-- Oracle: every type has an executor; every execution succeeds with null
output and no metadata. -/
def oraclePlain : EngineOracle :=
  ⟨fun _ => true, fun _ _ => Outcome.ok (some Val.vnull) none⟩

/-- Two start nodes fanning into one merge node (default object strategy). -/
def wfMerge : Workflow :=
  ⟨[⟨"A", "start", some emptyData⟩, ⟨"B", "start", some emptyData⟩,
    ⟨"M", "merge", some emptyData⟩],
   [⟨"e1", "A", none, "M", none⟩, ⟨"e2", "B", none, "M", none⟩]⟩

/-- Both branches finish, then both queued re-evaluations of M fire: the
interleaving where each branch's downstream check suspends at the merge
gate until the other branch has completed. -/
def evsMergeTwice : List Ev :=
  [.start "A", .finish "A", .start "B", .finish "B",
   .start "M", .finish "M", .start "M"]

/-- Two start nodes fanning into one ordinary (non-merge) node. -/
def wfDiamond : Workflow :=
  ⟨[⟨"A", "start", some emptyData⟩, ⟨"B", "start", some emptyData⟩,
    ⟨"D", "transform", some emptyData⟩],
   [⟨"e1", "A", none, "D", none⟩, ⟨"e2", "B", none, "D", none⟩]⟩

/-- A finishes and D runs to success on A's branch alone. -/
def evsDiamondFirst : List Ev := [.start "A", .finish "A", .start "D", .finish "D"]

/-- ... then B finishes and re-schedules D, which re-enters running. -/
def evsDiamondSecond : List Ev :=
  evsDiamondFirst ++ [.start "B", .finish "B", .start "D"]

/-- The minimal linear workflow: a trigger feeding an output node. -/
def wfLinear : Workflow :=
  ⟨[⟨"T", "manualTrigger", some emptyData⟩, ⟨"O", "output", some emptyData⟩],
   [⟨"eTO", "T", none, "O", none⟩]⟩

/-- The complete successful run of wfLinear. -/
def evsLinear : List Ev := [.start "T", .finish "T", .start "O", .finish "O"]

/-- Oracle under which node B emits activeHandles = ["t"]. -/
def oracleBranch : EngineOracle :=
  ⟨fun _ => true, fun n _ =>
    if n = "B" then Outcome.ok (some Val.vnull) (some ["t"])
    else Outcome.ok (some Val.vnull) none⟩

/-- A branch node with TWO parallel edges to the same target: the first
carries handle "f", the second handle "t". -/
def wfBranch : Workflow :=
  ⟨[⟨"B", "condition", some emptyData⟩, ⟨"D", "output", some emptyData⟩],
   [⟨"e1", "B", some "f", "D", none⟩, ⟨"e2", "B", some "t", "D", none⟩]⟩

/-- The empty store state. -/
def emptyState : WorkflowState := ⟨[], [], [], []⟩

def nodeA : Node := ⟨"A", "output", none⟩

/-- An edge from A to itself. -/
def selfLoopEdge : WEdge := ⟨"e1", "A", none, "A", none⟩

/-- A document violating the structural invariants (self-loop). -/
def selfLoopDoc : WorkflowDoc := ⟨some [nodeA], some [selfLoopEdge]⟩

/-- A scheduleTrigger node enabled on every minute. -/
def schedNode : Node := ⟨"S", "scheduleTrigger", some ⟨true, some "* * * * *", none⟩⟩

/-- A tool service with one connected tool whose callback throws. -/
def svcThrow : ToolService :=
  ⟨[("t1", "n1")], some (fun _ _ => Except.error "boom"), fun _ => none⟩

/-- The LLM reply whose Action Input is not JSON. -/
def replyRawInput : String := "Action: mytool\nAction Input: hello world"

/-!
## Helper lemmas
-/

theorem splitOnChar_ne_nil (sep : Char) (l : List Char) : splitOnChar sep l ≠ [] := by
  induction l with
  | nil => simp [splitOnChar]
  | cons c rest ih =>
    simp only [splitOnChar]
    by_cases h : c = sep
    · simp [h]
    · simp only [if_neg h]
      cases hr : splitOnChar sep rest with
      | nil => simp
      | cons a b => simp

theorem splitOnChar_length_le (sep : Char) (l : List Char) :
    ∀ p ∈ splitOnChar sep l, p.length ≤ l.length := by
  induction l with
  | nil => intro p hp; simp [splitOnChar] at hp; simp [hp]
  | cons c rest ih =>
    intro p hp
    simp only [splitOnChar] at hp
    by_cases h : c = sep
    · rw [if_pos h] at hp
      rcases List.mem_cons.mp hp with h1 | h2
      · simp [h1]
      · exact Nat.le_succ_of_le (ih p h2)
    · rw [if_neg h] at hp
      cases hr : splitOnChar sep rest with
      | nil => exact absurd hr (splitOnChar_ne_nil sep rest)
      | cons a b =>
        rw [hr] at hp
        rcases List.mem_cons.mp hp with h1 | h2
        · subst h1
          have : a ∈ splitOnChar sep rest := by rw [hr]; exact List.mem_cons_self a b
          simpa using Nat.succ_le_succ (ih a this)
        · have : p ∈ splitOnChar sep rest := by rw [hr]; exact List.mem_cons_of_mem a h2
          exact Nat.le_succ_of_le (ih p this)

theorem splitOnChar_length_lt (sep : Char) (l : List Char) (hsep : sep ∈ l) :
    ∀ p ∈ splitOnChar sep l, p.length < l.length := by
  induction l with
  | nil => cases hsep
  | cons c rest ih =>
    intro p hp
    simp only [splitOnChar] at hp
    by_cases h : c = sep
    · rw [if_pos h] at hp
      rcases List.mem_cons.mp hp with h1 | h2
      · simp [h1]
      · exact Nat.lt_succ_of_le (splitOnChar_length_le sep rest p h2)
    · have hsep' : sep ∈ rest := by
        rcases List.mem_cons.mp hsep with h1 | h2
        · exact absurd h1.symm h
        · exact h2
      rw [if_neg h] at hp
      cases hr : splitOnChar sep rest with
      | nil => exact absurd hr (splitOnChar_ne_nil sep rest)
      | cons a b =>
        rw [hr] at hp
        rcases List.mem_cons.mp hp with h1 | h2
        · subst h1
          have : a ∈ splitOnChar sep rest := by rw [hr]; exact List.mem_cons_self a b
          simpa using Nat.succ_lt_succ (ih hsep' a this)
        · have : p ∈ splitOnChar sep rest := by rw [hr]; exact List.mem_cons_of_mem a h2
          exact Nat.lt_succ_of_lt (ih hsep' p this)

theorem checkPartAux_nil (value minB maxB : Int) (f : Nat) :
    checkPartAux value minB maxB f [] = false := by
  cases f <;> rfl

theorem listAnyCongr {α : Type} {l : List α} {p q : α → Bool}
    (h : ∀ x ∈ l, p x = q x) : l.any p = l.any q := by
  induction l with
  | nil => rfl
  | cons a t ih =>
    simp only [List.any_cons]
    rw [h a (List.mem_cons_self a t), ih fun x hx => h x (List.mem_cons_of_mem a hx)]

theorem headD_mem_of_ne_nil {α : Type} (l : List α) (d : α) (h : l ≠ []) :
    l.headD d ∈ l := by
  cases l with
  | nil => exact absurd rfl h
  | cons a t => simp

/-- The fuel is irrelevant from the field length upward. -/
theorem checkPartAux_congr (value minB maxB : Int) :
    ∀ n : Nat, ∀ part : List Char, part.length ≤ n →
      ∀ f g : Nat, part.length ≤ f → part.length ≤ g →
        checkPartAux value minB maxB f part = checkPartAux value minB maxB g part := by
  intro n
  induction n with
  | zero =>
    intro part hn f g _ _
    have : part = [] := List.eq_nil_of_length_eq_zero (Nat.le_zero.mp hn)
    subst this
    rw [checkPartAux_nil, checkPartAux_nil]
  | succ n ih =>
    intro part hn f g hf hg
    cases part with
    | nil => rw [checkPartAux_nil, checkPartAux_nil]
    | cons c rest =>
      have hlen : (c :: rest).length ≥ 1 := by simp
      cases f with
      | zero => omega
      | succ f' =>
        cases g with
        | zero => omega
        | succ g' =>
          show checkPartAux value minB maxB (f' + 1) (c :: rest) =
               checkPartAux value minB maxB (g' + 1) (c :: rest)
          simp only [checkPartAux]
          by_cases h1 : (c :: rest) = ['*']
          · simp [h1]
          · rw [if_neg h1, if_neg h1]
            by_cases h2 : (c :: rest).contains ','
            · rw [if_pos h2, if_pos h2]
              exact listAnyCongr fun p hp => by
                have hlt : p.length < (c :: rest).length :=
                  splitOnChar_length_lt ',' (c :: rest) (List.mem_of_elem_eq_true h2) p hp
                exact ih p (by omega) f' g' (by omega) (by omega)
            · rw [if_neg h2, if_neg h2]
              by_cases h3 : (c :: rest).contains '/'
              · rw [if_pos h3, if_pos h3]
                have hmem : (splitOnChar '/' (c :: rest)).headD [] ∈
                    splitOnChar '/' (c :: rest) :=
                  headD_mem_of_ne_nil _ _ (splitOnChar_ne_nil '/' (c :: rest))
                have hlt : ((splitOnChar '/' (c :: rest)).headD []).length <
                    (c :: rest).length :=
                  splitOnChar_length_lt '/' (c :: rest)
                    (List.mem_of_elem_eq_true h3) _ hmem
                have hrec : checkPartAux value minB maxB f'
                      ((splitOnChar '/' (c :: rest)).headD []) =
                    checkPartAux value minB maxB g'
                      ((splitOnChar '/' (c :: rest)).headD []) :=
                  ih _ (by simp at hlt hn ⊢; omega) f' g'
                    (by simp at hlt hf ⊢; omega) (by simp at hlt hg ⊢; omega)
                cases parseIntJs (((splitOnChar '/' (c :: rest)).drop 1).headD []) with
                | none => rfl
                | some step => exact if_congr Iff.rfl rfl (by rw [hrec])
              · rw [if_neg h3, if_neg h3]

/-- The recurrence the source function satisfies, with the fuel eliminated:
this is the shape of _checkPart itself. -/
theorem checkPart_eq (value minB maxB : Int) (part : List Char) :
    checkPart value minB maxB part =
      if part = ['*'] then true
      else if part.contains ',' then
        ((splitOnChar ',' part).any fun p => checkPart value minB maxB p)
      else if part.contains '/' then
        match parseIntJs (((splitOnChar '/' part).drop 1).headD []) with
        | none => false
        | some step =>
          if (splitOnChar '/' part).headD [] = ['*'] then
            jsMod (value - minB) step == some 0
          else
            checkPart value minB maxB ((splitOnChar '/' part).headD []) &&
            jsMod value step == some 0
      else if part.contains '-' then
        match parseIntJs ((splitOnChar '-' part).headD []),
              parseIntJs (((splitOnChar '-' part).drop 1).headD []) with
        | some s, some e => decide (s ≤ value) && decide (value ≤ e)
        | _, _ => false
      else parseIntJs part == some value := by
  cases part with
  | nil =>
    rw [checkPart, checkPartAux_nil]
    rfl
  | cons c rest =>
    show checkPartAux value minB maxB (rest.length + 1) (c :: rest) = _
    simp only [checkPartAux]
    by_cases h1 : (c :: rest) = ['*']
    · simp [h1]
    · rw [if_neg h1, if_neg h1]
      by_cases h2 : (c :: rest).contains ','
      · rw [if_pos h2, if_pos h2]
        exact listAnyCongr fun p hp => by
          have hlt : p.length < (c :: rest).length :=
            splitOnChar_length_lt ',' (c :: rest) (List.mem_of_elem_eq_true h2) p hp
          exact checkPartAux_congr value minB maxB (c :: rest).length p (by omega)
            rest.length p.length (by simp at hlt ⊢; omega) (by omega)
      · rw [if_neg h2, if_neg h2]
        by_cases h3 : (c :: rest).contains '/'
        · rw [if_pos h3, if_pos h3]
          have hmem : (splitOnChar '/' (c :: rest)).headD [] ∈
              splitOnChar '/' (c :: rest) :=
            headD_mem_of_ne_nil _ _ (splitOnChar_ne_nil '/' (c :: rest))
          have hlt : ((splitOnChar '/' (c :: rest)).headD []).length <
              (c :: rest).length :=
            splitOnChar_length_lt '/' (c :: rest)
              (List.mem_of_elem_eq_true h3) _ hmem
          have hrec : checkPartAux value minB maxB rest.length
                ((splitOnChar '/' (c :: rest)).headD []) =
              checkPart value minB maxB ((splitOnChar '/' (c :: rest)).headD []) :=
            checkPartAux_congr value minB maxB (c :: rest).length _
              (by simp at hlt ⊢; omega) rest.length _
              (by simp at hlt ⊢; omega) (by omega)
          cases parseIntJs (((splitOnChar '/' (c :: rest)).drop 1).headD []) with
          | none => rfl
          | some step => exact if_congr Iff.rfl rfl (by rw [hrec])
        · rw [if_neg h3, if_neg h3]

/-!
## C9 — workflow loading and edge insertion
-/

/-- C9 counterexample: loading rejects nothing. A document containing a
self-loop edge (A → A), which the claim says must be rejected, is installed
verbatim by loadWorkflow. -/
theorem loadWorkflow_accepts_selfloop :
    selfLoopEdge.source = selfLoopEdge.target ∧
    (loadWorkflow emptyState selfLoopDoc).edges = [selfLoopEdge] ∧
    (loadWorkflow emptyState selfLoopDoc).nodes = [nodeA] :=
  ⟨rfl, rfl, rfl⟩

/-- C9 (amended): loadWorkflow installs the document as-is, with no
validation of node-id uniqueness, edge references, self-loops or duplicate
quadruples; the only structural check in the store is addEdge's refusal of
an exact (source, sourceHandle, target, targetHandle) duplicate, which
preserves quadruple uniqueness of the edge list. -/
theorem workflowStore_contract :
    (∀ st wf, (loadWorkflow st wf).nodes = wf.nodes.getD [] ∧
              (loadWorkflow st wf).edges = wf.edges.getD [] ∧
              (loadWorkflow st wf).selectedNodeIds = [] ∧
              (loadWorkflow st wf).selectedEdgeIds = []) ∧
    (∀ st e, (st.edges.any (fun x => sameQuad x e) = true → addEdge st e = st) ∧
             (st.edges.any (fun x => sameQuad x e) = false →
               (addEdge st e).edges = st.edges ++ [e])) ∧
    (∀ st e, st.edges.Pairwise (fun a b => sameQuad a b = false) →
             (addEdge st e).edges.Pairwise (fun a b => sameQuad a b = false)) := by
  refine ⟨fun st wf => ⟨rfl, rfl, rfl, rfl⟩,
          fun st e => ⟨fun h => by simp [addEdge, h], fun h => by simp [addEdge, h]⟩,
          fun st e hp => ?_⟩
  by_cases h : st.edges.any (fun x => sameQuad x e) = true
  · simpa [addEdge, h] using hp
  · have h' : st.edges.any (fun x => sameQuad x e) = false := by
      simpa using h
    have hall : ∀ x ∈ st.edges, sameQuad x e = false := by
      intro x hx
      by_contra hcon
      have : st.edges.any (fun x => sameQuad x e) = true :=
        List.any_eq_true.mpr ⟨x, hx, by simpa using hcon⟩
      simp [this] at h'
    have : (addEdge st e).edges = st.edges ++ [e] := by simp [addEdge, h']
    rw [this, List.pairwise_append]
    exact ⟨hp, List.pairwise_singleton _ e, fun a ha b hb => by
      simp at hb; subst hb; exact hall a ha⟩

/-- C9 witness: the amended contract evaluated at a duplicate insertion and
at a fresh insertion. -/
theorem workflowStore_contract_witness :
    (addEdge ⟨[], [selfLoopEdge], [], []⟩ selfLoopEdge = ⟨[], [selfLoopEdge], [], []⟩) ∧
    (addEdge emptyState selfLoopEdge).edges = [] ++ [selfLoopEdge] :=
  ⟨(workflowStore_contract.2.1 ⟨[], [selfLoopEdge], [], []⟩ selfLoopEdge).1 (by rfl),
   (workflowStore_contract.2.1 emptyState selfLoopEdge).2 (by rfl)⟩

/-!
## C10 — tool dispatch totality
-/

/-- C10: _executeTool is total — it returns a plain value on every path
(modelled exceptions are Except values and every one is caught): an unknown
tool yields the not-found error object, a throwing connected-node callback
yields the prefixed error object, a throwing executor yields its message as
an error object, successful results pass through, and runTool is the same
function. A bad tool choice therefore cannot abort the ReAct loop. -/
theorem executeTool_total (svc : ToolService) (toolName : String) (toolInput : Val) :
    (mapGet svc.toolNodeMap toolName = none → svc.getExecutor toolName = none →
      executeTool svc toolName toolInput =
        errObj ("Tool \x22" ++ toolName ++ "\x22 not found")) ∧
    (∀ nodeId cb, mapGet svc.toolNodeMap toolName = some nodeId →
      svc.executeNodeCallback = some cb →
      (∀ m, cb nodeId toolInput = Except.error m →
        executeTool svc toolName toolInput =
          errObj ("Tool execution failed: " ++ m)) ∧
      (∀ v, cb nodeId toolInput = Except.ok v →
        executeTool svc toolName toolInput = v)) ∧
    (∀ ex, mapGet svc.toolNodeMap toolName = none →
      svc.getExecutor toolName = some ex →
      (∀ m, ex toolInput = Except.error m →
        executeTool svc toolName toolInput = errObj m) ∧
      (∀ v, ex toolInput = Except.ok v →
        executeTool svc toolName toolInput = v)) ∧
    runTool svc toolName toolInput = executeTool svc toolName toolInput := by
  refine ⟨fun h1 h2 => by simp [executeTool, h1, h2],
          fun nodeId cb h1 h2 =>
            ⟨fun m hm => by simp [executeTool, h1, h2, hm],
             fun v hv => by simp [executeTool, h1, h2, hv]⟩,
          fun ex h1 h2 =>
            ⟨fun m hm => by simp [executeTool, h1, h2, hm],
             fun v hv => by simp [executeTool, h1, h2, hv]⟩, rfl⟩

/-- C10 witness: the dispatcher evaluated on a throwing connected tool and
on an unknown tool name. -/
theorem executeTool_total_witness :
    executeTool svcThrow "t1" Val.vnull =
      errObj ("Tool execution failed: " ++ "boom") ∧
    executeTool svcThrow "zzz" Val.vnull =
      errObj ("Tool \x22" ++ "zzz" ++ "\x22 not found") :=
  ⟨((executeTool_total svcThrow "t1" Val.vnull).2.1 "n1" _ (by rfl) rfl).1 "boom" rfl,
   (executeTool_total svcThrow "zzz" Val.vnull).1 (by rfl) rfl⟩

/-!
## C7 — the scheduler tick
-/

/-- shouldTrigger analysed: it passes only for an enabled node whose
non-empty cron expression matches now. -/
theorem shouldTrigger_spec (data? : Option NodeData) (now : JsDate)
    (h : shouldTrigger data? now = true) :
    ∃ d, data? = some d ∧ d.enabled = true ∧
      ∃ e, d.cronExpression = some e ∧ e ≠ "" ∧ matchesCron e now = true := by
  cases data? with
  | none => simp [shouldTrigger] at h
  | some d =>
    cases he : d.enabled with
    | false => simp [shouldTrigger, he] at h
    | true =>
      cases hc : d.cronExpression with
      | none => simp [shouldTrigger, he, hc] at h
      | some e =>
        by_cases hee : e = ""
        · subst hee; simp [shouldTrigger, he, hc] at h
        · refine ⟨d, rfl, he, e, hc, hee, ?_⟩
          have : shouldTrigger (some d) now = matchesCron e now := by
            simp only [shouldTrigger, he, hc]
            cases e with
            | mk cs =>
              cases cs with
              | nil => exact absurd rfl hee
              | cons a b => rfl
          rw [this] at h
          exact h

/-- C7: a tick evaluates triggers only when the current absolute minute is
strictly greater than the last processed one; a fired node is the first
scheduleTrigger in node order that is enabled with a matching non-empty cron
expression; at most one node fires per tick; the last processed minute
advances to the current minute unconditionally after a scan, so a second
tick in the same minute never fires. -/
theorem schedulerTick_contract :
    (∀ (l : Nat) (ns : List Node) (now : JsDate) (m : Nat),
       ¬ m > l → schedulerTick l ns now m = (l, none)) ∧
    (∀ (l : Nat) (ns : List Node) (now : JsDate) (m : Nat) (nid : String),
       (schedulerTick l ns now m).2 = some nid →
       ∃ n : Node, schedulerScan ns now = some n ∧ n ∈ ns ∧ n.id = nid ∧
         n.type = "scheduleTrigger" ∧
         ∃ d, n.data = some d ∧ d.enabled = true ∧
           ∃ e, d.cronExpression = some e ∧ e ≠ "" ∧ matchesCron e now = true) ∧
    (∀ (l : Nat) (ns : List Node) (now : JsDate) (m : Nat),
       (schedulerTick l ns now m).1 = if m > l then m else l) ∧
    (∀ (l : Nat) (ns ns' : List Node) (now now' : JsDate) (m : Nat),
       (schedulerTick (schedulerTick l ns now m).1 ns' now' m).2 = none) := by
  refine ⟨fun l ns now m h => by simp [schedulerTick, h],
          fun l ns now m nid h => ?_,
          fun l ns now m => by by_cases h : m > l <;> simp [schedulerTick, h],
          fun l ns ns' now now' m => ?_⟩
  · by_cases hml : m > l
    · simp only [schedulerTick, if_pos hml] at h
      cases hscan : schedulerScan ns now with
      | none => rw [hscan] at h; simp at h
      | some n =>
        rw [hscan] at h
        simp at h
        have hmem : n ∈ ns := List.mem_of_find?_eq_some hscan
        have hpred := List.find?_some hscan
        have hty : n.type = "scheduleTrigger" := by
          have := (Bool.and_eq_true ..).mp hpred
          simpa using this.1
        have hst : shouldTrigger n.data now = true := by
          have := (Bool.and_eq_true ..).mp hpred
          exact this.2
        obtain ⟨d, hd, hen, e, hce, hne, hmatch⟩ := shouldTrigger_spec n.data now hst
        exact ⟨n, rfl, hmem, h, hty, d, hd, hen, e, hce, hne, hmatch⟩
    · simp [schedulerTick, hml] at h
  · by_cases hml : m > l
    · simp [schedulerTick, if_pos hml]
    · simp only [schedulerTick, if_neg hml]

/-- C7 witness: a concrete tick with an always-matching enabled trigger at a
new minute fires that node; the theorem's scan characterization is
instantiated on it. -/
theorem schedulerTick_contract_witness :
    ∃ n : Node, schedulerScan [schedNode] dWed = some n ∧ n ∈ [schedNode] ∧
      n.id = "S" ∧ n.type = "scheduleTrigger" ∧
      ∃ d, n.data = some d ∧ d.enabled = true ∧
        ∃ e, d.cronExpression = some e ∧ e ≠ "" ∧ matchesCron e dWed = true :=
  schedulerTick_contract.2.1 0 [schedNode] dWed 5 "S" (by rfl)

/-!
## Lemmas on the JS Set / Map embeddings
-/

theorem mem_setInsert (l : List String) (z y : String) :
    y ∈ setInsert l z ↔ y ∈ l ∨ y = z := by
  unfold setInsert
  by_cases hc : l.contains z
  · rw [if_pos hc]
    constructor
    · exact fun h => Or.inl h
    · rintro (h | h)
      · exact h
      · subst h; exact List.mem_of_elem_eq_true hc
  · rw [if_neg hc]
    simp

theorem setInsert_nodup (l : List String) (z : String) (h : l.Nodup) :
    (setInsert l z).Nodup := by
  unfold setInsert
  by_cases hc : l.contains z
  · rwa [if_pos hc]
  · rw [if_neg hc]
    have hz : z ∉ l := fun hm => hc (List.elem_eq_true_of_mem hm)
    rw [List.nodup_append]
    refine ⟨h, List.nodup_singleton z, ?_⟩
    intro a ha hb
    rw [List.mem_singleton] at hb
    subst hb
    exact hz ha

theorem foldl_setInsert_nodup {α : Type} (g : α → String) (xs : List α) :
    ∀ acc : List String, acc.Nodup →
      (xs.foldl (fun a x => setInsert a (g x)) acc).Nodup := by
  induction xs with
  | nil => intro acc h; exact h
  | cons x t ih => intro acc h; exact ih _ (setInsert_nodup acc (g x) h)

theorem mem_foldl_setInsert {α : Type} (g : α → String) :
    ∀ (xs : List α) (acc : List String) (y : String),
      (y ∈ xs.foldl (fun a x => setInsert a (g x)) acc ↔
        y ∈ acc ∨ ∃ x ∈ xs, g x = y) := by
  intro xs
  induction xs with
  | nil => intro acc y; simp
  | cons x t ih =>
    intro acc y
    rw [List.foldl_cons, ih, mem_setInsert]
    constructor
    · rintro ((h | h) | ⟨x', hx', hg⟩)
      · exact Or.inl h
      · exact Or.inr ⟨x, List.mem_cons_self x t, h.symm⟩
      · exact Or.inr ⟨x', List.mem_cons_of_mem x hx', hg⟩
    · rintro (h | ⟨x', hx', hg⟩)
      · exact Or.inl (Or.inl h)
      · rcases List.mem_cons.mp hx' with h1 | h1
        · subst h1; exact Or.inl (Or.inr hg.symm)
        · exact Or.inr ⟨x', h1, hg⟩

theorem incomingOf_nodup (wf : Workflow) (nid : String) :
    (incomingOf wf nid).Nodup :=
  foldl_setInsert_nodup _ _ [] List.nodup_nil

theorem mem_outgoingOf (wf : Workflow) (nid t : String) :
    t ∈ outgoingOf wf nid ↔
      ∃ e ∈ graphEdges wf, e.source = nid ∧ e.target = t := by
  unfold outgoingOf
  rw [mem_foldl_setInsert (fun e : WEdge => e.target)]
  simp only [List.not_mem_nil, false_or, List.mem_filter, beq_iff_eq]
  constructor
  · rintro ⟨e, ⟨he, hs⟩, ht⟩
    exact ⟨e, he, hs, ht⟩
  · rintro ⟨e, he, hs, ht⟩
    exact ⟨e, ⟨he, hs⟩, ht⟩

theorem mapGet_map_replace_ne {α : Type} (k k' : String) (v : α)
    (h : k ≠ k') :
    ∀ m : List (String × α),
      mapGet (m.map (fun p => if p.1 == k then (k, v) else p)) k' = mapGet m k' := by
  intro m
  induction m with
  | nil => rfl
  | cons p t ih =>
    simp only [List.map_cons]
    by_cases hp : p.1 == k
    · rw [if_pos hp]
      unfold mapGet
      rw [List.find?_cons, List.find?_cons]
      have h1 : (((k, v) : String × α).1 == k') = false := by simp [h]
      have h2 : (p.1 == k') = false := by
        have : p.1 = k := by simpa using hp
        simp [this, h]
      rw [h1, h2]
      exact ih
    · rw [if_neg hp]
      unfold mapGet
      rw [List.find?_cons, List.find?_cons]
      by_cases hp' : p.1 == k'
      · rw [hp']
      · rw [Bool.eq_false_iff.mpr hp']
        exact ih

theorem mapGet_append_single_ne {α : Type} (m : List (String × α))
    (k k' : String) (v : α) (h : k ≠ k') :
    mapGet (m ++ [(k, v)]) k' = mapGet m k' := by
  unfold mapGet
  rw [List.find?_append]
  cases hf : m.find? (fun p => p.1 == k') with
  | some p => rfl
  | none =>
    have : [((k, v) : String × α)].find? (fun p => p.1 == k') = none := by
      simp [h]
    rw [this]
    rfl

theorem mapGet_mapSet_ne {α : Type} (m : List (String × α)) (k k' : String)
    (v : α) (h : k ≠ k') : mapGet (mapSet m k v) k' = mapGet m k' := by
  unfold mapSet
  by_cases ha : m.any (fun p => p.1 == k)
  · rw [if_pos ha]
    exact mapGet_map_replace_ne k k' v h m
  · rw [if_neg ha]
    exact mapGet_append_single_ne m k k' v h

theorem mapGet_map_replace_same {α : Type} (k : String) (v : α) :
    ∀ m : List (String × α), m.any (fun p => p.1 == k) = true →
      mapGet (m.map (fun p => if p.1 == k then (k, v) else p)) k = some v := by
  intro m
  induction m with
  | nil => intro ha; simp at ha
  | cons p t ih =>
    intro ha
    simp only [List.map_cons]
    by_cases hp : p.1 == k
    · rw [if_pos hp]
      unfold mapGet
      rw [List.find?_cons]
      simp
    · rw [if_neg hp]
      unfold mapGet
      rw [List.find?_cons, Bool.eq_false_iff.mpr hp]
      have ha' : t.any (fun p => p.1 == k) = true := by
        rw [List.any_cons] at ha
        rcases Bool.or_eq_true_iff.mp ha with h | h
        · exact absurd h hp
        · exact h
      exact ih ha'

theorem mapGet_mapSet_same {α : Type} (m : List (String × α)) (k : String)
    (v : α) : mapGet (mapSet m k v) k = some v := by
  unfold mapSet
  by_cases ha : m.any (fun p => p.1 == k)
  · rw [if_pos ha]
    exact mapGet_map_replace_same k v m ha
  · rw [if_neg ha]
    unfold mapGet
    rw [List.find?_append]
    have hnone : m.find? (fun p => p.1 == k) = none := by
      rw [List.find?_eq_none]
      intro p hp hpk
      exact ha (List.any_eq_true.mpr ⟨p, hp, hpk⟩)
    rw [hnone]
    simp

/-!
## C5 — input gathering
-/

/-- The fold inside _gatherInputs, materialized over a duplicate-free source
list: it appends exactly the successful sources with their outputs. -/
theorem gather_fold_eq (results : List (String × NodeResult)) :
    ∀ (l : List String) (acc : List (String × Option Val)),
      l.Nodup → (∀ s ∈ l, acc.any (fun p => p.1 == s) = false) →
      (l.foldl (fun acc s =>
        match mapGet results s with
        | some r => if r.status == Status.success then mapSet acc s r.output else acc
        | none => acc) acc)
      = acc ++ (l.filter (isSuccessIn results)).map
          (fun s => (s, (mapGet results s).bind (fun r => r.output))) := by
  intro l
  induction l with
  | nil => intro acc _ _; simp
  | cons s t ih =>
    intro acc hnd hfresh
    have hnd' := List.Nodup.of_cons hnd
    have hsnott : s ∉ t := (List.nodup_cons.mp hnd).1
    rw [List.foldl_cons]
    rcases Option.eq_none_or_eq_some (mapGet results s) with hm | ⟨r, hm⟩
    · have hsucc : isSuccessIn results s = false := by simp [isSuccessIn, hm]
      simp only [hm]
      rw [List.filter_cons_of_neg (by simp [hsucc])]
      exact ih acc hnd' fun s' hs' => hfresh s' (List.mem_cons_of_mem s hs')
    · cases hst : (r.status == Status.success) with
      | false =>
        have hsucc : isSuccessIn results s = false := by simp [isSuccessIn, hm, hst]
        simp only [hm, hst, Bool.false_eq_true, if_false]
        rw [List.filter_cons_of_neg (by simp [hsucc])]
        exact ih acc hnd' fun s' hs' => hfresh s' (List.mem_cons_of_mem s hs')
      | true =>
        have hsucc : isSuccessIn results s = true := by simp [isSuccessIn, hm, hst]
        simp only [hm, hst, if_true]
        have hset : mapSet acc s r.output = acc ++ [(s, r.output)] := by
          unfold mapSet
          rw [if_neg (by simp [hfresh s (List.mem_cons_self s t)])]
        rw [hset]
        have hfresh2 : ∀ s' ∈ t,
            ((acc ++ [(s, r.output)]).any fun p => p.1 == s') = false := by
          intro s' hs'
          rw [List.any_append]
          have h1 : acc.any (fun p => p.1 == s') = false :=
            hfresh s' (List.mem_cons_of_mem s hs')
          have h2 : ([(s, r.output)].any fun p => p.1 == s') = false := by
            have hne : s ≠ s' := fun he => hsnott (he ▸ hs')
            simp [hne]
          rw [h1, h2]
          rfl
        rw [ih (acc ++ [(s, r.output)]) hnd' hfresh2]
        rw [List.filter_cons_of_pos (by simp [hsucc]), List.map_cons]
        simp [hm]

/-- C5: _gatherInputs builds the mapping sourceId → output over exactly the
upstream sources whose stored status is success (in upstream-set order), and
unwraps the single value when exactly one such source exists. -/
theorem gatherInputs_spec (wf : Workflow) (nid : String)
    (results : List (String × NodeResult)) :
    gatherInputs wf nid results =
      (match ((incomingOf wf nid).filter (isSuccessIn results)).map
          (fun s => (s, (mapGet results s).bind (fun r => r.output))) with
       | [(_, v)] => Gathered.single v
       | m => Gathered.multi m) := by
  unfold gatherInputs
  rw [gather_fold_eq results (incomingOf wf nid) [] (incomingOf_nodup wf nid)
    (by intro s _; rfl)]
  rw [List.nil_append]
  cases ((incomingOf wf nid).filter (isSuccessIn results)).map
      (fun s => (s, (mapGet results s).bind (fun r => r.output))) with
  | nil => rfl
  | cons p t =>
    cases t with
    | nil => rfl
    | cons q u => rfl

/-!
## Step characterization of applyEv
-/

theorem applyEv_start_notask (wf : Workflow) (O : EngineOracle) (c : Config)
    (n : String) (h : c.tasks.contains n = false) :
    applyEv wf O c (Ev.start n) = c := by
  simp only [applyEv]
  exact if_neg fun heq => by rw [h] at heq; exact Bool.false_ne_true heq

theorem applyEv_start_nonode (wf : Workflow) (O : EngineOracle) (c : Config)
    (n : String) (ht : c.tasks.contains n = true)
    (hn : lookupNode wf n = none) :
    applyEv wf O c (Ev.start n) = { c with tasks := c.tasks.erase n } := by
  simp only [applyEv]
  rw [if_pos ht, hn]

theorem applyEv_start_mergewait (wf : Workflow) (O : EngineOracle) (c : Config)
    (n : String) (node : Node) (ht : c.tasks.contains n = true)
    (hn : lookupNode wf n = some node)
    (hm : (node.type == "merge" && !handleMergeNodeReady wf c.results n node) = true) :
    applyEv wf O c (Ev.start n) = { c with tasks := c.tasks.erase n } := by
  simp only [applyEv]
  rw [if_pos ht, hn]
  exact if_pos hm

theorem applyEv_start_noexec (wf : Workflow) (O : EngineOracle) (c : Config)
    (n : String) (node : Node) (ht : c.tasks.contains n = true)
    (hn : lookupNode wf n = some node)
    (hm : (node.type == "merge" && !handleMergeNodeReady wf c.results n node) = false)
    (he : O.hasExecutor node.type = false) :
    applyEv wf O c (Ev.start n) = { c with tasks := c.tasks.erase n } := by
  simp only [applyEv]
  rw [if_pos ht, hn]
  exact (if_neg fun heq => by rw [hm] at heq; exact Bool.false_ne_true heq).trans
    (if_pos (by simp [he]))

theorem applyEv_start_run (wf : Workflow) (O : EngineOracle) (c : Config)
    (n : String) (node : Node) (ht : c.tasks.contains n = true)
    (hn : lookupNode wf n = some node)
    (hm : (node.type == "merge" && !handleMergeNodeReady wf c.results n node) = false)
    (he : O.hasExecutor node.type = true) :
    applyEv wf O c (Ev.start n) =
      { c with
        tasks := c.tasks.erase n
        results := mapSet c.results n
          { (mapGet c.results n).getD emptyResult with status := Status.running }
        startedLog := c.startedLog ++ [n]
        inFlight := c.inFlight ++ [(n, O.run n (gatherInputs wf n c.results))] } := by
  simp only [applyEv]
  rw [if_pos ht, hn]
  exact (if_neg fun heq => by rw [hm] at heq; exact Bool.false_ne_true heq).trans
    (if_neg (by simp [he]))

theorem applyEv_finish_none (wf : Workflow) (O : EngineOracle) (c : Config)
    (n : String) (h : (c.inFlight.find? fun p => p.1 == n) = none) :
    applyEv wf O c (Ev.finish n) = c := by
  simp only [applyEv]
  rw [h]

theorem applyEv_finish_err (wf : Workflow) (O : EngineOracle) (c : Config)
    (n k : String) (m : String)
    (h : (c.inFlight.find? fun p => p.1 == n) = some (k, Outcome.err m)) :
    applyEv wf O c (Ev.finish n) =
      { c with
        inFlight := eraseFirstKey c.inFlight n
        results := mapSet c.results n
          { (mapGet c.results n).getD emptyResult with
            status := Status.error, output := none, errMsg := some m } } := by
  simp only [applyEv]
  rw [h]

theorem applyEv_finish_ok (wf : Workflow) (O : EngineOracle) (c : Config)
    (n k : String) (out : Option Val) (handles : Option (List String))
    (h : (c.inFlight.find? fun p => p.1 == n) = some (k, Outcome.ok out handles)) :
    applyEv wf O c (Ev.finish n) =
      { c with
        inFlight := eraseFirstKey c.inFlight n
        results := mapSet c.results n
          { (mapGet c.results n).getD emptyResult with
            status := Status.success, output := out, errMsg := none }
        snapshots := writeSnapshots wf n out c.snapshots
        tasks := c.tasks ++ filterDownstream wf n handles (outgoingOf wf n) } := by
  simp only [applyEv]
  rw [h]

/-!
## C2 — edge snapshots are never written
-/

/-- The snapshot loop looks for an outgoing edge inside the node's OWN
incomingEdges list. Every edge there targets the node itself, so in a
workflow without self-loops the search always fails and nothing is written. -/
theorem writeSnapshots_id (wf : Workflow)
    (h : ∀ e ∈ wf.edges, e.source ≠ e.target) (nid : String) (out : Option Val)
    (snaps : List (String × Option Val)) :
    writeSnapshots wf nid out snaps = snaps := by
  unfold writeSnapshots
  have hstep : ∀ t ∈ outgoingOf wf nid,
      (incomingEdges wf nid).find? (fun e => e.target == t) = none := by
    intro t ht
    rw [List.find?_eq_none]
    intro e he
    have he2 := List.mem_filter.mp he
    have htgt : e.target = nid := by simpa using he2.2
    intro hbeq
    have htt : e.target = t := by simpa using hbeq
    have htn : t = nid := by rw [← htt, htgt]
    obtain ⟨e', he', hs, htg⟩ := (mem_outgoingOf wf nid t).mp ht
    have he'w : e' ∈ wf.edges := (List.mem_filter.mp he').1
    exact h e' he'w (by rw [hs, htg, htn])
  revert hstep
  generalize outgoingOf wf nid = ts
  intro hstep
  induction ts with
  | nil => rfl
  | cons t ts ih =>
    rw [List.foldl_cons, hstep t (List.mem_cons_self ..)]
    exact ih fun t' ht' => hstep t' (List.mem_cons_of_mem _ ht')

/-- No single event writes a snapshot in a self-loop-free workflow. -/
theorem applyEv_snapshots_id (wf : Workflow) (O : EngineOracle) (c : Config)
    (ev : Ev) (h : ∀ e ∈ wf.edges, e.source ≠ e.target) :
    (applyEv wf O c ev).snapshots = c.snapshots := by
  cases ev with
  | start n =>
    cases hb : c.tasks.contains n with
    | false => rw [applyEv_start_notask wf O c n hb]
    | true =>
      rcases Option.eq_none_or_eq_some (lookupNode wf n) with hn | ⟨node, hn⟩
      · rw [applyEv_start_nonode wf O c n hb hn]
      · cases hg : (node.type == "merge" && !handleMergeNodeReady wf c.results n node) with
        | true => rw [applyEv_start_mergewait wf O c n node hb hn hg]
        | false =>
          cases he : O.hasExecutor node.type with
          | false => rw [applyEv_start_noexec wf O c n node hb hn hg he]
          | true => rw [applyEv_start_run wf O c n node hb hn hg he]
  | finish n =>
    rcases Option.eq_none_or_eq_some (c.inFlight.find? fun p => p.1 == n) with hf | ⟨p, hf⟩
    · rw [applyEv_finish_none wf O c n hf]
    · obtain ⟨k, oc⟩ := p
      cases oc with
      | err m => rw [applyEv_finish_err wf O c n k m hf]
      | ok out handles =>
        rw [applyEv_finish_ok wf O c n k out handles hf]
        exact writeSnapshots_id wf h n out c.snapshots

/-- C2: in any run of a workflow without self-loop edges — every workflow
the claim's invariant concerns — the engine never writes a single edge
snapshot: the store's snapshot map stays empty for the whole run, although
the spec requires exactly one record per outgoing edge of every successful
node. The lookup bug: the code searches entry.incomingEdges (edges INTO the
node) for an edge whose target is the downstream node. -/
theorem replay_snapshots_empty (wf : Workflow) (O : EngineOracle) (evs : List Ev)
    (h : ∀ e ∈ wf.edges, e.source ≠ e.target) :
    (replay wf O evs).snapshots = [] := by
  suffices haux : ∀ (l : List Ev) (c : Config), c.snapshots = [] →
      (l.foldl (applyEv wf O) c).snapshots = [] by
    exact haux evs (initConfig wf) rfl
  intro l
  induction l with
  | nil => intro c hc; exact hc
  | cons ev rest ih =>
    intro c hc
    rw [List.foldl_cons]
    exact ih _ ((applyEv_snapshots_id wf O c ev h).trans hc)

/-- C2 witness: the failing input itself — the linear trigger-to-output
workflow runs to full success and ends with an empty snapshot map, though T
has outgoing edge eTO. -/
theorem replay_snapshots_empty_witness :
    (∀ e ∈ wfLinear.edges, e.source ≠ e.target) ∧
    statusOf (replay wfLinear oraclePlain evsLinear) "T" = some Status.success ∧
    statusOf (replay wfLinear oraclePlain evsLinear) "O" = some Status.success ∧
    outgoingOf wfLinear "T" = ["O"] ∧
    (replay wfLinear oraclePlain evsLinear).snapshots = [] :=
  ⟨by decide, rfl, rfl, rfl,
   replay_snapshots_empty wfLinear oraclePlain evsLinear (by decide)⟩

/-!
## C1 — merge synchronization
-/

/-- C1 counterexample: with the default object strategy, after both branches
complete, each branch's queued re-evaluation of M finds it ready, so M is
started twice in one run — the engine keeps no merge-already-ran state. -/
theorem merge_double_execution :
    lookupNode wfMerge "M" = some ⟨"M", "merge", some emptyData⟩ ∧
    resolvedStrategy emptyData = "object" ∧
    incomingOf wfMerge "M" = ["A", "B"] ∧
    (replay wfMerge oraclePlain evsMergeTwice).startedLog = ["A", "B", "M", "M"] ∧
    (replay wfMerge oraclePlain evsMergeTwice).startedLog.count "M" = 2 :=
  ⟨rfl, rfl, rfl, rfl, rfl⟩

/-- The wait-all readiness test, spelled out. -/
theorem handleMergeNodeReady_all (wf : Workflow)
    (results : List (String × NodeResult)) (nid : String) (node : Node)
    (d : NodeData) (hd : node.data = some d)
    (h1 : resolvedStrategy d ≠ "first") (h2 : resolvedStrategy d ≠ "race") :
    (handleMergeNodeReady wf results nid node = true ↔
      ∀ s ∈ incomingOf wf nid, isSuccessIn results s = true) := by
  unfold handleMergeNodeReady
  rw [hd]
  have hsb : (resolvedStrategy d == "first" || resolvedStrategy d == "race") = false := by
    simp [h1, h2]
  show ((if (resolvedStrategy d == "first" || resolvedStrategy d == "race") = true
      then decide (0 < (incomingOf wf nid).countP (isSuccessIn results))
      else ((incomingOf wf nid).countP (isSuccessIn results) ==
        (incomingOf wf nid).length)) = true) ↔ _
  rw [if_neg fun hh => Bool.false_ne_true (hsb ▸ hh)]
  rw [beq_iff_eq]
  exact List.countP_eq_length

/-- The first/race readiness test, spelled out. -/
theorem handleMergeNodeReady_first (wf : Workflow)
    (results : List (String × NodeResult)) (nid : String) (node : Node)
    (d : NodeData) (hd : node.data = some d)
    (h1 : resolvedStrategy d = "first" ∨ resolvedStrategy d = "race") :
    (handleMergeNodeReady wf results nid node = true ↔
      ∃ s ∈ incomingOf wf nid, isSuccessIn results s = true) := by
  unfold handleMergeNodeReady
  rw [hd]
  have hsb : (resolvedStrategy d == "first" || resolvedStrategy d == "race") = true := by
    rcases h1 with h | h <;> simp [h]
  show ((if (resolvedStrategy d == "first" || resolvedStrategy d == "race") = true
      then decide (0 < (incomingOf wf nid).countP (isSuccessIn results))
      else ((incomingOf wf nid).countP (isSuccessIn results) ==
        (incomingOf wf nid).length)) = true) ↔ _
  rw [if_pos hsb]
  rw [decide_eq_true_iff]
  rw [List.countP_pos_iff]

/-- C1 (amended): a merge node M starts only when _handleMergeNode reports it
ready — with the object (default) strategy that means every incoming source
has status success, with first/race that some source has — and a queued
re-evaluation of a ready merge with a registered executor does start it; but
nothing marks M as already run, so each re-evaluation that finds M ready
starts it again (see the counterexample): execution is NOT at most once per
run. -/
theorem merge_execution_contract (wf : Workflow) (O : EngineOracle) (c : Config)
    (nid : String) (node : Node) (d : NodeData)
    (hn : lookupNode wf nid = some node) (hty : node.type = "merge")
    (hd : node.data = some d) :
    (resolvedStrategy d ≠ "first" → resolvedStrategy d ≠ "race" →
      (applyEv wf O c (Ev.start nid)).startedLog ≠ c.startedLog →
      ∀ s ∈ incomingOf wf nid, isSuccessIn c.results s = true) ∧
    (resolvedStrategy d = "first" ∨ resolvedStrategy d = "race" →
      (applyEv wf O c (Ev.start nid)).startedLog ≠ c.startedLog →
      ∃ s ∈ incomingOf wf nid, isSuccessIn c.results s = true) ∧
    (c.tasks.contains nid = true → O.hasExecutor "merge" = true →
      handleMergeNodeReady wf c.results nid node = true →
      (applyEv wf O c (Ev.start nid)).startedLog = c.startedLog ++ [nid]) := by
  have hkey : (applyEv wf O c (Ev.start nid)).startedLog ≠ c.startedLog →
      handleMergeNodeReady wf c.results nid node = true := by
    intro hlog
    cases hb : c.tasks.contains nid with
    | false => exact absurd (by rw [applyEv_start_notask wf O c nid hb]) hlog
    | true =>
      cases hr : handleMergeNodeReady wf c.results nid node with
      | true => rfl
      | false =>
        have hg : (node.type == "merge" && !handleMergeNodeReady wf c.results nid node)
            = true := by
          simp [hty, hr]
        exact absurd (by rw [applyEv_start_mergewait wf O c nid node hb hn hg]) hlog
  refine ⟨fun h1 h2 hlog => ?_, fun h1 hlog => ?_, fun hb he hr => ?_⟩
  · exact (handleMergeNodeReady_all wf c.results nid node d hd h1 h2).mp (hkey hlog)
  · exact (handleMergeNodeReady_first wf c.results nid node d hd h1).mp (hkey hlog)
  · have hg : (node.type == "merge" && !handleMergeNodeReady wf c.results nid node)
        = false := by
      simp [hr]
    have he' : O.hasExecutor node.type = true := by rw [hty]; exact he
    rw [applyEv_start_run wf O c nid node hb hn hg he']

/-- C1 witness: the amended contract instantiated on wfMerge right after
both branches completed — the queued re-evaluation starts M and both
upstream sources are indeed successful. -/
theorem merge_execution_contract_witness :
    (applyEv wfMerge oraclePlain
        (replay wfMerge oraclePlain
          [Ev.start "A", Ev.finish "A", Ev.start "B", Ev.finish "B"])
        (Ev.start "M")).startedLog =
      (replay wfMerge oraclePlain
        [Ev.start "A", Ev.finish "A", Ev.start "B", Ev.finish "B"]).startedLog ++ ["M"] ∧
    (∀ s ∈ incomingOf wfMerge "M",
      isSuccessIn (replay wfMerge oraclePlain
        [Ev.start "A", Ev.finish "A", Ev.start "B", Ev.finish "B"]).results s = true) := by
  constructor
  · exact (merge_execution_contract wfMerge oraclePlain _ "M"
      ⟨"M", "merge", some emptyData⟩ emptyData rfl rfl rfl).2.2
      (by rfl) (by rfl) (by rfl)
  · exact (merge_execution_contract wfMerge oraclePlain _ "M"
      ⟨"M", "merge", some emptyData⟩ emptyData rfl rfl rfl).1
      (by decide) (by decide) (by decide)

/-!
## C3 — conditional routing
-/

/-- C3 counterexample: wfBranch has an edge B → D with sourceHandle "t" and
B completes with activeHandles = ["t"], yet D is never scheduled — the
engine consults only the FIRST edge connecting B to D, which carries handle
"f". After B's run completes, the task queue is empty and D has no status. -/
theorem conditional_routing_first_edge_only :
    (∃ e ∈ wfBranch.edges, e.source = "B" ∧ e.target = "D" ∧
      e.sourceHandle = some "t") ∧
    oracleBranch.run "B" (gatherInputs wfBranch "B" []) =
      Outcome.ok (some Val.vnull) (some ["t"]) ∧
    statusOf (replay wfBranch oracleBranch [Ev.start "B", Ev.finish "B"]) "B" =
      some Status.success ∧
    (replay wfBranch oracleBranch [Ev.start "B", Ev.finish "B"]).tasks = [] ∧
    statusOf (replay wfBranch oracleBranch [Ev.start "B", Ev.finish "B"]) "D" = none :=
  ⟨by decide, rfl, rfl, rfl, rfl⟩

/-- C3 (amended): when a node completes with an activeHandles array H, the
engine appends to the task queue exactly those downstream nodes whose FIRST
connecting edge (in incomingEdges order of the target) carries a
sourceHandle contained in H — not "some edge" as the claim states; without
an activeHandles array every downstream node is scheduled. -/
theorem conditional_routing_contract (wf : Workflow) (O : EngineOracle)
    (c : Config) (n : String) :
    (∀ (k : String) (out : Option Val) (hs : List String),
      (c.inFlight.find? fun p => p.1 == n) = some (k, Outcome.ok out (some hs)) →
      (applyEv wf O c (Ev.finish n)).tasks =
        c.tasks ++ filterDownstream wf n (some hs) (outgoingOf wf n) ∧
      ∀ t, (t ∈ (applyEv wf O c (Ev.finish n)).tasks ↔
        t ∈ c.tasks ∨ (t ∈ outgoingOf wf n ∧
          ∃ e, (incomingEdges wf t).find? (fun x => x.source == n) = some e ∧
            ∃ h, e.sourceHandle = some h ∧ hs.contains h = true))) ∧
    (∀ (k : String) (out : Option Val),
      (c.inFlight.find? fun p => p.1 == n) = some (k, Outcome.ok out none) →
      (applyEv wf O c (Ev.finish n)).tasks = c.tasks ++ outgoingOf wf n) := by
  constructor
  · intro k out hs hf
    rw [applyEv_finish_ok wf O c n k out (some hs) hf]
    refine ⟨rfl, fun t => ?_⟩
    show t ∈ c.tasks ++ filterDownstream wf n (some hs) (outgoingOf wf n) ↔ _
    rw [List.mem_append]
    unfold filterDownstream
    rw [List.mem_filter]
    constructor
    · rintro (h | ⟨hmem, hcond⟩)
      · exact Or.inl h
      · refine Or.inr ⟨hmem, ?_⟩
        rcases hfind : (incomingEdges wf t).find? (fun x => x.source == n) with _ | e
        · rw [hfind] at hcond
          exact absurd hcond Bool.false_ne_true
        · rw [hfind] at hcond
          have hcond2 : (match e.sourceHandle with
              | some h => hs.contains h
              | none => false) = true := hcond
          rcases hsh : e.sourceHandle with _ | h
          · rw [hsh] at hcond2
            exact absurd hcond2 Bool.false_ne_true
          · rw [hsh] at hcond2
            have hcond3 : hs.contains h = true := hcond2
            exact ⟨e, hfind, h, hsh, hcond3⟩
    · rintro (h | ⟨hmem, e, hfind, h, hsh, hcont⟩)
      · exact Or.inl h
      · refine Or.inr ⟨hmem, ?_⟩
        rw [hfind]
        have hgoal : (match e.sourceHandle with
            | some h => hs.contains h
            | none => false) = true := by
          rw [hsh]
          exact hcont
        exact hgoal
  · intro k out hf
    rw [applyEv_finish_ok wf O c n k out none hf]
    rfl

/-- C3 witness: the amended routing rule instantiated on wfBranch — the
queue after B finishes is exactly the filtered (here empty) downstream, and
the membership characterization agrees: the first B → D edge carries "f",
not a member of ["t"]. -/
theorem conditional_routing_contract_witness :
    ((applyEv wfBranch oracleBranch
        (replay wfBranch oracleBranch [Ev.start "B"]) (Ev.finish "B")).tasks =
      (replay wfBranch oracleBranch [Ev.start "B"]).tasks ++
        filterDownstream wfBranch "B" (some ["t"]) (outgoingOf wfBranch "B")) ∧
    ¬ ("D" ∈ (applyEv wfBranch oracleBranch
        (replay wfBranch oracleBranch [Ev.start "B"]) (Ev.finish "B")).tasks) := by
  have h := (conditional_routing_contract wfBranch oracleBranch
    (replay wfBranch oracleBranch [Ev.start "B"]) "B").1 "B" (some Val.vnull)
    ["t"] (by rfl)
  refine ⟨h.1, fun hmem => ?_⟩
  rcases (h.2 "D").mp hmem with hin | ⟨_, e, hfind, hh, hsh, hcont⟩
  · exact absurd hin (by decide)
  · have : e = ⟨"e1", "B", some "f", "D", none⟩ := by
      have : (incomingEdges wfBranch "D").find? (fun x => x.source == "B") =
          some ⟨"e1", "B", some "f", "D", none⟩ := by decide
      rw [this] at hfind
      exact (Option.some.injEq _ _).mp hfind.symm
    subst this
    simp at hsh
    subst hsh
    exact absurd hcont (by decide)

/-!
## C4 — status monotonicity
-/

/-- C4 counterexample: a non-merge node D with two upstream parents runs to
success on the first parent's branch, then the second parent's completion
re-schedules it and D re-enters running — its status changes after success
and it executes twice in the same run. -/
theorem status_reenters_running :
    lookupNode wfDiamond "D" = some ⟨"D", "transform", some emptyData⟩ ∧
    statusOf (replay wfDiamond oraclePlain evsDiamondFirst) "D" =
      some Status.success ∧
    statusOf (replay wfDiamond oraclePlain evsDiamondSecond) "D" =
      some Status.running ∧
    (replay wfDiamond oraclePlain evsDiamondSecond).startedLog.count "D" = 2 :=
  ⟨rfl, rfl, rfl, rfl⟩

/-- Every event leaves the started log unchanged or appends one node. -/
theorem applyEv_startedLog_cases (wf : Workflow) (O : EngineOracle) (c : Config)
    (ev : Ev) :
    (applyEv wf O c ev).startedLog = c.startedLog ∨
    ∃ n, ev = Ev.start n ∧
      (applyEv wf O c ev).startedLog = c.startedLog ++ [n] := by
  cases ev with
  | start n =>
    cases hb : c.tasks.contains n with
    | false => exact Or.inl (by rw [applyEv_start_notask wf O c n hb])
    | true =>
      rcases Option.eq_none_or_eq_some (lookupNode wf n) with hn | ⟨node, hn⟩
      · exact Or.inl (by rw [applyEv_start_nonode wf O c n hb hn])
      · cases hg : (node.type == "merge" && !handleMergeNodeReady wf c.results n node) with
        | true => exact Or.inl (by rw [applyEv_start_mergewait wf O c n node hb hn hg])
        | false =>
          cases he : O.hasExecutor node.type with
          | false => exact Or.inl (by rw [applyEv_start_noexec wf O c n node hb hn hg he])
          | true => exact Or.inr ⟨n, rfl, by rw [applyEv_start_run wf O c n node hb hn hg he]⟩
  | finish n =>
    rcases Option.eq_none_or_eq_some (c.inFlight.find? fun p => p.1 == n) with hf | ⟨p, hf⟩
    · exact Or.inl (by rw [applyEv_finish_none wf O c n hf])
    · obtain ⟨k, oc⟩ := p
      cases oc with
      | err m => exact Or.inl (by rw [applyEv_finish_err wf O c n k m hf])
      | ok out handles => exact Or.inl (by rw [applyEv_finish_ok wf O c n k out handles hf])

/-- The started count never decreases. -/
theorem applyEv_count_le (wf : Workflow) (O : EngineOracle) (c : Config)
    (ev : Ev) (n : String) :
    c.startedLog.count n ≤ (applyEv wf O c ev).startedLog.count n := by
  rcases applyEv_startedLog_cases wf O c ev with h | ⟨m, _, h⟩
  · rw [h]
  · rw [h, List.count_append]
    exact Nat.le_add_right _ _

theorem foldl_count_le (wf : Workflow) (O : EngineOracle) :
    ∀ (evs : List Ev) (c : Config) (n : String),
      c.startedLog.count n ≤ ((evs.foldl (applyEv wf O) c).startedLog.count n) := by
  intro evs
  induction evs with
  | nil => intro c n; exact Nat.le_refl _
  | cons ev rest ih =>
    intro c n
    rw [List.foldl_cons]
    exact Nat.le_trans (applyEv_count_le wf O c ev n) (ih _ n)

theorem mem_of_mem_eraseFirstKey {p : String × Outcome} :
    ∀ {l : List (String × Outcome)} {k : String}, p ∈ eraseFirstKey l k → p ∈ l := by
  intro l
  induction l with
  | nil => intro k h; cases h
  | cons q t ih =>
    intro k h
    unfold eraseFirstKey at h
    by_cases hq : q.1 == k
    · rw [if_pos hq] at h
      exact List.mem_cons_of_mem q h
    · rw [if_neg hq] at h
      rcases List.mem_cons.mp h with h1 | h1
      · exact h1 ▸ List.mem_cons_self q t
      · exact List.mem_cons_of_mem q (ih h1)

/-- One event that does not start n again and finds no in-flight execution
of n preserves n's success status and the absence of in-flight entries. -/
theorem applyEv_preserves_success (wf : Workflow) (O : EngineOracle)
    (c : Config) (ev : Ev) (n : String)
    (hs : statusOf c n = some Status.success)
    (hif : (c.inFlight.find? fun p => p.1 == n) = none)
    (hcount : (applyEv wf O c ev).startedLog.count n = c.startedLog.count n) :
    statusOf (applyEv wf O c ev) n = some Status.success ∧
    ((applyEv wf O c ev).inFlight.find? fun p => p.1 == n) = none := by
  cases ev with
  | start m =>
    cases hb : c.tasks.contains m with
    | false => rw [applyEv_start_notask wf O c m hb]; exact ⟨hs, hif⟩
    | true =>
      rcases Option.eq_none_or_eq_some (lookupNode wf m) with hn | ⟨node, hn⟩
      · rw [applyEv_start_nonode wf O c m hb hn]; exact ⟨hs, hif⟩
      · cases hg : (node.type == "merge" && !handleMergeNodeReady wf c.results m node) with
        | true => rw [applyEv_start_mergewait wf O c m node hb hn hg]; exact ⟨hs, hif⟩
        | false =>
          cases he : O.hasExecutor node.type with
          | false => rw [applyEv_start_noexec wf O c m node hb hn hg he]; exact ⟨hs, hif⟩
          | true =>
            have hrun := applyEv_start_run wf O c m node hb hn hg he
            have hmn : m ≠ n := by
              intro heq
              subst heq
              rw [hrun] at hcount
              rw [List.count_append, List.count_cons_self, List.count_nil] at hcount
              omega
            have hs' : (mapGet c.results n).map (fun r => r.status) =
                some Status.success := hs
            constructor
            · have hkey : (mapGet (mapSet c.results m
                  { (mapGet c.results m).getD emptyResult with
                    status := Status.running }) n).map (fun r => r.status) =
                  some Status.success := by
                rw [mapGet_mapSet_ne c.results m n _ hmn]
                exact hs'
              rw [hrun]
              exact hkey
            · rw [hrun]
              show ((c.inFlight ++ [(m, O.run m (gatherInputs wf m c.results))]).find?
                  fun p => p.1 == n) = none
              rw [List.find?_append, hif]
              simp [hmn]
  | finish m =>
    rcases Option.eq_none_or_eq_some (c.inFlight.find? fun p => p.1 == m) with hf | ⟨p, hf⟩
    · rw [applyEv_finish_none wf O c m hf]; exact ⟨hs, hif⟩
    · obtain ⟨k, oc⟩ := p
      have hmn : m ≠ n := by
        intro heq
        subst heq
        rw [hf] at hif
        cases hif
      have hifp : (eraseFirstKey c.inFlight m).find? (fun q => q.1 == n) = none := by
        rw [List.find?_eq_none] at hif ⊢
        intro q hq
        exact hif q (mem_of_mem_eraseFirstKey hq)
      cases oc with
      | err msg =>
        have hs' : (mapGet c.results n).map (fun r => r.status) =
            some Status.success := hs
        have hkey : (mapGet (mapSet c.results m
            { (mapGet c.results m).getD emptyResult with
              status := Status.error, output := none, errMsg := some msg }) n).map
              (fun r => r.status) = some Status.success := by
          rw [mapGet_mapSet_ne c.results m n _ hmn]
          exact hs'
        rw [applyEv_finish_err wf O c m k msg hf]
        exact ⟨hkey, hifp⟩
      | ok out handles =>
        have hs' : (mapGet c.results n).map (fun r => r.status) =
            some Status.success := hs
        have hkey : (mapGet (mapSet c.results m
            { (mapGet c.results m).getD emptyResult with
              status := Status.success, output := out, errMsg := none }) n).map
              (fun r => r.status) = some Status.success := by
          rw [mapGet_mapSet_ne c.results m n _ hmn]
          exact hs'
        rw [applyEv_finish_ok wf O c m k out handles hf]
        exact ⟨hkey, hifp⟩

/-- Success is preserved by any event suffix that neither re-starts the node
nor completes an in-flight execution of it. -/
theorem success_stable_aux (wf : Workflow) (O : EngineOracle) (n : String) :
    ∀ (evs' : List Ev) (c : Config),
      statusOf c n = some Status.success →
      ((c.inFlight.find? fun p => p.1 == n) = none) →
      (evs'.foldl (applyEv wf O) c).startedLog.count n = c.startedLog.count n →
      statusOf (evs'.foldl (applyEv wf O) c) n = some Status.success := by
  intro evs'
  induction evs' with
  | nil => intro c hs _ _; exact hs
  | cons ev rest ih =>
    intro c hs hif hcount
    rw [List.foldl_cons] at hcount ⊢
    have h1 : (applyEv wf O c ev).startedLog.count n = c.startedLog.count n := by
      have hle1 := applyEv_count_le wf O c ev n
      have hle2 := foldl_count_le wf O rest (applyEv wf O c ev) n
      omega
    have hpres := applyEv_preserves_success wf O c ev n hs hif h1
    exact ih (applyEv wf O c ev) hpres.1 hpres.2 (by omega)

/-- C4 (amended): once a node has status success, the status changes again
only if the engine starts the node again (as happens to a multi-parent
non-merge node; see the counterexample) or an older in-flight execution of
it completes. If after some point the node is neither re-started (its
started count stays fixed) nor in flight, its success status is stable for
the remainder of the run. -/
theorem success_stable_without_restart (wf : Workflow) (O : EngineOracle)
    (evs evs' : List Ev) (n : String)
    (hs : statusOf (replay wf O evs) n = some Status.success)
    (hif : ((replay wf O evs).inFlight.find? fun p => p.1 == n) = none)
    (hcount : (replay wf O (evs ++ evs')).startedLog.count n =
      (replay wf O evs).startedLog.count n) :
    statusOf (replay wf O (evs ++ evs')) n = some Status.success := by
  rw [replay, List.foldl_append] at hcount ⊢
  exact success_stable_aux wf O n evs' (replay wf O evs) hs hif hcount

/-!
## C6 — the cron matcher versus the grammar
-/

theorem joinSep_splitOnChar (sep : Char) (cs : List Char) :
    joinSep sep (splitOnChar sep cs) = cs := by
  induction cs with
  | nil => rfl
  | cons c rest ih =>
    simp only [splitOnChar]
    by_cases h : c = sep
    · rw [if_pos h]
      cases hr : splitOnChar sep rest with
      | nil => exact absurd hr (splitOnChar_ne_nil sep rest)
      | cons a b =>
        show [] ++ sep :: joinSep sep (a :: b) = c :: rest
        rw [List.nil_append, h, ← hr, ih]
    · rw [if_neg h]
      cases hr : splitOnChar sep rest with
      | nil => exact absurd hr (splitOnChar_ne_nil sep rest)
      | cons a b =>
        cases b with
        | nil =>
          show c :: a = c :: rest
          rw [hr] at ih
          have ha : a = rest := ih
          rw [ha]
        | cons a2 b2 =>
          show (c :: a) ++ sep :: joinSep sep (a2 :: b2) = c :: rest
          rw [hr] at ih
          have ha : a ++ sep :: joinSep sep (a2 :: b2) = rest := ih
          rw [List.cons_append, ha]

theorem splitOnChar_chunks_no_sep (sep : Char) (cs : List Char) :
    ∀ p ∈ splitOnChar sep cs, sep ∉ p := by
  induction cs with
  | nil =>
    intro p hp
    simp [splitOnChar] at hp
    subst hp
    simp
  | cons c rest ih =>
    intro p hp
    simp only [splitOnChar] at hp
    by_cases h : c = sep
    · rw [if_pos h] at hp
      rcases List.mem_cons.mp hp with h1 | h1
      · subst h1; simp
      · exact ih p h1
    · rw [if_neg h] at hp
      cases hr : splitOnChar sep rest with
      | nil => exact absurd hr (splitOnChar_ne_nil sep rest)
      | cons a b =>
        rw [hr] at hp
        rcases List.mem_cons.mp hp with h1 | h1
        · subst h1
          intro hmem
          rcases List.mem_cons.mp hmem with h2 | h2
          · exact h h2.symm
          · exact ih a (by rw [hr]; exact List.mem_cons_self ..) h2
        · exact ih p (by rw [hr]; exact List.mem_cons_of_mem a h1)

/-- A split with at least two chunks means the separator occurs. -/
theorem sep_mem_of_splitOnChar_cons2 (sep : Char) (cs : List Char)
    (x y : List Char) (t : List (List Char))
    (h : splitOnChar sep cs = x :: y :: t) : sep ∈ cs := by
  have hj := joinSep_splitOnChar sep cs
  rw [h] at hj
  have hj' : x ++ sep :: joinSep sep (y :: t) = cs := hj
  rw [← hj']
  exact List.mem_append_right x (List.mem_cons_self ..)

/-- The characters of a two-chunk split. -/
theorem mem_of_splitOnChar_pair (sep : Char) (cs : List Char)
    (a b : List Char) (h : splitOnChar sep cs = [a, b]) (c : Char) :
    c ∈ cs ↔ c ∈ a ∨ c = sep ∨ c ∈ b := by
  have hj := joinSep_splitOnChar sep cs
  rw [h] at hj
  have hj' : a ++ sep :: b = cs := hj
  rw [← hj']
  simp

/-- A single-chunk split is the whole separator-free string. -/
theorem splitOnChar_single (sep : Char) (cs r : List Char)
    (h : splitOnChar sep cs = [r]) : cs = r ∧ sep ∉ cs := by
  have hj := joinSep_splitOnChar sep cs
  rw [h] at hj
  have hj' : r = cs := hj
  subst hj'
  exact ⟨rfl, splitOnChar_chunks_no_sep sep r r (h ▸ List.mem_cons_self ..)⟩

theorem isDigit_not_ws (c : Char) (h : c.isDigit = true) :
    c.isWhitespace = false := by
  cases hw : c.isWhitespace with
  | false => rfl
  | true =>
    exfalso
    simp [Char.isWhitespace] at hw
    rcases hw with ((h1 | h1) | h1) | h1 <;>
      (subst h1; exact absurd h (by decide))

theorem isDigit_ne (c : Char) (h : c.isDigit = true) (d : Char)
    (hd : d.isDigit = false) : c ≠ d := by
  intro he
  rw [he, hd] at h
  cases h

theorem contains_false_of_not_mem {c : Char} {cs : List Char} (h : c ∉ cs) :
    cs.contains c = false := by
  cases hb : cs.contains c with
  | false => rfl
  | true => exact absurd (List.mem_of_elem_eq_true hb) h

theorem takeWhile_of_all {α : Type} (p : α → Bool) :
    ∀ l : List α, (∀ x ∈ l, p x = true) → l.takeWhile p = l := by
  intro l
  induction l with
  | nil => intro _; rfl
  | cons a t ih =>
    intro h
    rw [List.takeWhile_cons, if_pos (h a (List.mem_cons_self ..))]
    rw [ih fun x hx => h x (List.mem_cons_of_mem a hx)]

/-- parseInt on a canonical numeral yields its value. -/
theorem parseIntJs_numeral (cs : List Char) (h : isNumeral cs = true) :
    parseIntJs cs = some (Int.ofNat (numVal cs)) := by
  unfold isNumeral at h
  rw [Bool.and_eq_true] at h
  obtain ⟨hne, hall⟩ := h
  have hall' : ∀ x ∈ cs, x.isDigit = true := by
    intro x hx
    exact List.all_eq_true.mp hall x hx
  cases cs with
  | nil => simp at hne
  | cons c t =>
    have hc := hall' c (List.mem_cons_self ..)
    have hdw : (c :: t).dropWhile (fun x => x.isWhitespace) = c :: t := by
      rw [List.dropWhile_cons, isDigit_not_ws c hc]
      simp
    have hh : ((c :: t).dropWhile (fun x => x.isWhitespace)).headD 'x' = c := by
      rw [hdw]; rfl
    have hcm : ¬ (c = '-') := isDigit_ne c hc '-' (by decide)
    have hcp : ¬ (c = '+') := isDigit_ne c hc '+' (by decide)
    unfold parseIntJs
    simp only [hdw, List.headD_cons]
    have hcond1 : ¬ ((decide (c = '-') || decide (c = '+')) = true) := by
      simp [hcm, hcp]
    rw [if_neg hcond1]
    rw [takeWhile_of_all (fun x => x.isDigit) (c :: t) hall']
    have hcond2 : ¬ ((c :: t).isEmpty = true) := by simp
    rw [if_neg hcond2]
    have hcond3 : ¬ (decide (c = '-') = true) := by simp [hcm]
    rw [if_neg hcond3]
    rfl

theorem numeral_chars (cs : List Char) (h : isNumeral cs = true) :
    ∀ x ∈ cs, x.isDigit = true := by
  unfold isNumeral at h
  rw [Bool.and_eq_true] at h
  exact fun x hx => List.all_eq_true.mp h.2 x hx

theorem length_one_ex {α : Type} (l : List α) (h : l.length = 1) :
    ∃ x, l = [x] := by
  cases l with
  | nil => simp at h
  | cons x t =>
    cases t with
    | nil => exact ⟨x, rfl⟩
    | cons y t2 => simp at h

theorem length_two_ex {α : Type} (l : List α) (h : l.length = 2) :
    ∃ x y, l = [x, y] := by
  cases l with
  | nil => simp at h
  | cons x t =>
    cases t with
    | nil => simp at h
    | cons y t2 =>
      cases t2 with
      | nil => exact ⟨x, y, rfl⟩
      | cons z t3 => simp at h

theorem two_chunks_of_ne_one (sep : Char) (cs : List Char)
    (h : (splitOnChar sep cs).length ≠ 1) :
    ∃ x y t, splitOnChar sep cs = x :: y :: t := by
  cases hsp : splitOnChar sep cs with
  | nil => exact absurd hsp (splitOnChar_ne_nil sep cs)
  | cons x t =>
    cases t with
    | nil => rw [hsp] at h; simp at h
    | cons y t2 => exact ⟨x, y, t2, rfl⟩

/-- A grammatical range chunk a-b evaluates to the bounds test. -/
theorem checkPart_range_chunk (v mi ma : Int) (r a b : List Char)
    (hsp : splitOnChar '-' r = [a, b]) (han : isNumeral a = true)
    (hbn : isNumeral b = true) (hnoslash : '/' ∉ r) :
    checkPart v mi ma r =
      (decide ((numVal a : Int) ≤ v) && decide (v ≤ (numVal b : Int))) := by
  have hdm : '-' ∈ r := sep_mem_of_splitOnChar_cons2 '-' r a b [] hsp
  have hstar : r ≠ ['*'] := by
    intro he
    rw [he] at hdm
    simp at hdm
  have hchars := mem_of_splitOnChar_pair '-' r a b hsp
  have hcomma : r.contains ',' = false := contains_false_of_not_mem (fun hm => by
    rcases (hchars ',').mp hm with h1 | h1 | h1
    · exact absurd (numeral_chars a han ',' h1) (by decide)
    · exact absurd h1 (by decide)
    · exact absurd (numeral_chars b hbn ',' h1) (by decide))
  have hslash : r.contains '/' = false := contains_false_of_not_mem hnoslash
  have hdash : r.contains '-' = true := List.elem_eq_true_of_mem hdm
  have hhead : (splitOnChar '-' r).headD [] = a := by rw [hsp]; rfl
  have hsecond : ((splitOnChar '-' r).drop 1).headD [] = b := by rw [hsp]; rfl
  rw [checkPart_eq, if_neg hstar,
    if_neg (fun hh => Bool.false_ne_true (hcomma ▸ hh)),
    if_neg (fun hh => Bool.false_ne_true (hslash ▸ hh)),
    if_pos hdash, hhead, hsecond, parseIntJs_numeral a han,
    parseIntJs_numeral b hbn]
  rfl

/-- The matcher agrees with the grammar semantics on every well-formed
comma-free item. -/
theorem checkPart_atom (v mi ma : Int) (cs : List Char) (a : CronAtom)
    (h : parseAtom cs = some a) : checkPart v mi ma cs = atomMatches v mi a := by
  unfold parseAtom at h
  by_cases hstar : cs = ['*']
  · rw [if_pos hstar] at h
    injection h with h'
    subst h'
    rw [checkPart_eq, if_pos hstar]
    rfl
  · rw [if_neg hstar] at h
    by_cases hnum : isNumeral cs = true
    · rw [if_pos hnum] at h
      injection h with h'
      subst h'
      have hall := numeral_chars cs hnum
      have hnc : cs.contains ',' = false :=
        contains_false_of_not_mem fun hm => absurd (hall ',' hm) (by decide)
      have hns : cs.contains '/' = false :=
        contains_false_of_not_mem fun hm => absurd (hall '/' hm) (by decide)
      have hnd : cs.contains '-' = false :=
        contains_false_of_not_mem fun hm => absurd (hall '-' hm) (by decide)
      rw [checkPart_eq, if_neg hstar,
        if_neg (fun hh => Bool.false_ne_true (hnc ▸ hh)),
        if_neg (fun hh => Bool.false_ne_true (hns ▸ hh)),
        if_neg (fun hh => Bool.false_ne_true (hnd ▸ hh)),
        parseIntJs_numeral cs hnum]
      show (Int.ofNat (numVal cs) == v) = (v == Int.ofNat (numVal cs))
      by_cases hv : v = Int.ofNat (numVal cs)
      · rw [hv]
      · have hv' : ¬ (Int.ofNat (numVal cs) = v) := fun he => hv he.symm
        rw [beq_eq_false_iff_ne.mpr hv, beq_eq_false_iff_ne.mpr hv']
    · rw [if_neg hnum] at h
      by_cases hlen2 : (splitOnChar '/' cs).length = 2
      · rw [if_pos hlen2] at h
        obtain ⟨r, s, hsp⟩ := length_two_ex _ hlen2
        have hhead : (splitOnChar '/' cs).headD [] = r := by rw [hsp]; rfl
        have hsecond : ((splitOnChar '/' cs).drop 1).headD [] = s := by rw [hsp]; rfl
        rw [hhead, hsecond] at h
        by_cases hs1 : (isNumeral s && decide (numVal s ≠ 0)) = true
        · rw [if_pos hs1] at h
          rw [Bool.and_eq_true] at hs1
          obtain ⟨hsn, hsnz⟩ := hs1
          have hsnz' : numVal s ≠ 0 := by simpa using hsnz
          have hsnz'' : (Int.ofNat (numVal s)) ≠ 0 := by
            simpa using hsnz'
          have hmem : '/' ∈ cs := sep_mem_of_splitOnChar_cons2 '/' cs r s [] hsp
          have hcontains : cs.contains '/' = true := List.elem_eq_true_of_mem hmem
          have hchars := mem_of_splitOnChar_pair '/' cs r s hsp
          by_cases hr : r = ['*']
          · rw [if_pos hr] at h
            injection h with h'
            subst h'
            have hcomma : cs.contains ',' = false :=
              contains_false_of_not_mem (fun hm => by
                rcases (hchars ',').mp hm with h1 | h1 | h1
                · rw [hr] at h1; simp at h1
                · exact absurd h1 (by decide)
                · exact absurd (numeral_chars s hsn ',' h1) (by decide))
            have hred : checkPart v mi ma cs =
                (if (splitOnChar '/' cs).headD [] = ['*'] then
                  jsMod (v - mi) (Int.ofNat (numVal s)) == some 0
                else
                  checkPart v mi ma ((splitOnChar '/' cs).headD []) &&
                  jsMod v (Int.ofNat (numVal s)) == some 0) := by
              rw [checkPart_eq, if_neg hstar,
                if_neg (fun hh => Bool.false_ne_true (hcomma ▸ hh)),
                if_pos hcontains, hsecond, parseIntJs_numeral s hsn]
            rw [hred, if_pos (by rw [hhead, hr])]
            unfold jsMod
            rw [if_neg hsnz'']
            rfl
          · rw [if_neg hr] at h
            by_cases hrl : (splitOnChar '-' r).length = 2
            · rw [if_pos hrl] at h
              obtain ⟨ra, rb, hrsp⟩ := length_two_ex _ hrl
              have hrhead : (splitOnChar '-' r).headD [] = ra := by rw [hrsp]; rfl
              have hrsecond : ((splitOnChar '-' r).drop 1).headD [] = rb := by
                rw [hrsp]; rfl
              rw [hrhead, hrsecond] at h
              by_cases hrn : (isNumeral ra && isNumeral rb) = true
              · rw [if_pos hrn] at h
                injection h with h'
                subst h'
                rw [Bool.and_eq_true] at hrn
                obtain ⟨hran, hrbn⟩ := hrn
                have hrchars := mem_of_splitOnChar_pair '-' r ra rb hrsp
                have hcomma : cs.contains ',' = false :=
                  contains_false_of_not_mem (fun hm => by
                    rcases (hchars ',').mp hm with h1 | h1 | h1
                    · rcases (hrchars ',').mp h1 with h2 | h2 | h2
                      · exact absurd (numeral_chars ra hran ',' h2) (by decide)
                      · exact absurd h2 (by decide)
                      · exact absurd (numeral_chars rb hrbn ',' h2) (by decide)
                    · exact absurd h1 (by decide)
                    · exact absurd (numeral_chars s hsn ',' h1) (by decide))
                have hnoslash : '/' ∉ r :=
                  splitOnChar_chunks_no_sep '/' cs r
                    (by rw [hsp]; exact List.mem_cons_self ..)
                have hred : checkPart v mi ma cs =
                    (if (splitOnChar '/' cs).headD [] = ['*'] then
                      jsMod (v - mi) (Int.ofNat (numVal s)) == some 0
                    else
                      checkPart v mi ma ((splitOnChar '/' cs).headD []) &&
                      jsMod v (Int.ofNat (numVal s)) == some 0) := by
                  rw [checkPart_eq, if_neg hstar,
                    if_neg (fun hh => Bool.false_ne_true (hcomma ▸ hh)),
                    if_pos hcontains, hsecond, parseIntJs_numeral s hsn]
                rw [hred, if_neg (by rw [hhead]; exact hr), hhead,
                  checkPart_range_chunk v mi ma r ra rb hrsp hran hrbn hnoslash]
                unfold jsMod
                rw [if_neg hsnz'']
                rfl
              · rw [if_neg hrn] at h
                cases h
            · rw [if_neg hrl] at h
              cases h
        · rw [if_neg hs1] at h
          cases h
      · rw [if_neg hlen2] at h
        by_cases hone : (splitOnChar '/' cs).length = 1 ∧ (splitOnChar '-' cs).length = 2
        · rw [if_pos hone] at h
          obtain ⟨x, hx⟩ := length_one_ex _ hone.1
          have hnos : '/' ∉ cs := (splitOnChar_single '/' cs x hx).2
          obtain ⟨a2, b2, hdsp⟩ := length_two_ex _ hone.2
          have hdhead : (splitOnChar '-' cs).headD [] = a2 := by rw [hdsp]; rfl
          have hdsecond : ((splitOnChar '-' cs).drop 1).headD [] = b2 := by
            rw [hdsp]; rfl
          rw [hdhead, hdsecond] at h
          by_cases hn2 : (isNumeral a2 && isNumeral b2) = true
          · rw [if_pos hn2] at h
            injection h with h'
            subst h'
            rw [Bool.and_eq_true] at hn2
            obtain ⟨han, hbn⟩ := hn2
            rw [checkPart_range_chunk v mi ma cs a2 b2 hdsp han hbn hnos]
            rfl
          · rw [if_neg hn2] at h
            cases h
        · rw [if_neg hone] at h
          cases h

theorem allSome_cons_some (a : CronAtom) (l : List (Option CronAtom)) :
    allSome (some a :: l) = (allSome l).map (fun x => a :: x) := rfl

/-- The comma-list any agrees chunkwise with the parsed atoms. -/
theorem any_eq_of_allSome (v mi ma : Int) :
    ∀ (chunks : List (List Char)) (atoms : List CronAtom),
      allSome (chunks.map parseAtom) = some atoms →
      (chunks.any fun p => checkPart v mi ma p) = atoms.any (atomMatches v mi) := by
  intro chunks
  induction chunks with
  | nil =>
    intro atoms h
    injection h with h'
    subst h'
    rfl
  | cons ch rest ih =>
    intro atoms h
    simp only [List.map_cons] at h
    cases hpa : parseAtom ch with
    | none =>
      rw [hpa] at h
      cases h
    | some a =>
      rw [hpa, allSome_cons_some] at h
      cases hrest : allSome (rest.map parseAtom) with
      | none => rw [hrest] at h; cases h
      | some as =>
        rw [hrest] at h
        injection h with h'
        subst h'
        rw [List.any_cons, List.any_cons, checkPart_atom v mi ma ch a hpa,
          ih as hrest]

/-- The matcher agrees with the grammar semantics on every well-formed
field. -/
theorem checkPart_field (v mi ma : Int) (cs : List Char) (f : CronField)
    (h : parseField cs = some f) : checkPart v mi ma cs = fieldMatches v mi f := by
  unfold parseField at h
  by_cases hlen : (splitOnChar ',' cs).length = 1
  · rw [if_pos hlen] at h
    obtain ⟨one, hsp⟩ := length_one_ex _ hlen
    have hcseq := (splitOnChar_single ',' cs one hsp).1
    have hhead : (splitOnChar ',' cs).headD [] = one := by rw [hsp]; rfl
    rw [hhead] at h
    cases hpa : parseAtom one with
    | none => rw [hpa] at h; cases h
    | some a =>
      rw [hpa] at h
      injection h with h'
      subst h'
      rw [hcseq, checkPart_atom v mi ma one a hpa]
      rfl
  · rw [if_neg hlen] at h
    cases hall : allSome ((splitOnChar ',' cs).map parseAtom) with
    | none => rw [hall] at h; cases h
    | some atoms =>
      rw [hall] at h
      injection h with h'
      subst h'
      obtain ⟨x, y, t, hsp⟩ := two_chunks_of_ne_one ',' cs hlen
      have hmem : ',' ∈ cs := sep_mem_of_splitOnChar_cons2 ',' cs x y t hsp
      have hstar : cs ≠ ['*'] := by
        intro he
        rw [he] at hmem
        simp at hmem
      rw [checkPart_eq, if_neg hstar, if_pos (List.elem_eq_true_of_mem hmem)]
      exact any_eq_of_allSome v mi ma (splitOnChar ',' cs) atoms hall

/-- C4 witness: stability instantiated on the linear run — after the full
run, O is successful, nothing is in flight, and appending events that do not
start O again leaves it successful. -/
theorem success_stable_witness :
    statusOf (replay wfLinear oraclePlain
      (evsLinear ++ [Ev.start "T", Ev.finish "T"])) "O" = some Status.success := by
  have h := success_stable_without_restart wfLinear oraclePlain evsLinear
    [Ev.start "T", Ev.finish "T"] "O" (by rfl) (by rfl) (by decide)
  exact h

theorem matchesCron_not_five (cron : String) (d : JsDate)
    (h : (wsSplit cron.data).length ≠ 5) : matchesCron cron d = false := by
  unfold matchesCron
  exact if_pos h

/-- C6 counterexample: the field "7pigs" does not belong to the claimed
grammar (`*`, literal, comma list, range, step), so the whole expression
"7pigs * * * *" is malformed — yet `matchesCron` returns true at minute 7,
because `parseInt` reads the leading digits of "7pigs" and ignores the
trailing garbage. "Malformed expressions yield false" is wrong. -/
theorem cron_malformed_matches :
    parseField ("7pigs".data) = none ∧
    wellFormedCron "7pigs * * * *" = false ∧
    matchesCron "7pigs * * * *" dMin7 = true :=
  ⟨by decide, by decide, by decide⟩

/-- C6 (amended): on every grammatically well-formed field, `checkPart`
computes exactly the grammar's semantics (so for well-formed five-field
expressions `matchesCron` matches iff each field matches its component);
the three spec examples hold; an expression without exactly five
whitespace-separated fields never matches; and the matcher is a total
function (it never throws). Malformed fields, however, need NOT yield
false: JS `parseInt` is lenient (see the counterexample). -/
theorem cron_matcher_contract (v mi ma : Int) (cs : List Char) (f : CronField)
    (h : parseField cs = some f) :
    checkPart v mi ma cs = fieldMatches v mi f ∧
    matchesCron "*/15 * * * *" dWed = true ∧
    matchesCron "0 9 * * 1-5" dSat = false ∧
    matchesCron "0 9 * * 1-5" dMon = true ∧
    (∀ (cron : String) (d : JsDate), (wsSplit cron.data).length ≠ 5 →
      matchesCron cron d = false) :=
  ⟨checkPart_field v mi ma cs f h, by decide, by decide, by decide,
    fun cron d h5 => matchesCron_not_five cron d h5⟩

/-- C6 witness: the contract instantiated at the weekday field "1-5". -/
theorem cron_matcher_contract_witness :
    parseField ("1-5".data) = some (CronField.one (CronAtom.range 1 5)) ∧
    (checkPart 1 0 6 ("1-5".data) =
        fieldMatches 1 0 (CronField.one (CronAtom.range 1 5)) ∧
      matchesCron "*/15 * * * *" dWed = true ∧
      matchesCron "0 9 * * 1-5" dSat = false ∧
      matchesCron "0 9 * * 1-5" dMon = true ∧
      (∀ (cron : String) (d : JsDate), (wsSplit cron.data).length ≠ 5 →
        matchesCron cron d = false)) :=
  ⟨by decide, cron_matcher_contract 1 0 6 ("1-5".data)
    (CronField.one (CronAtom.range 1 5)) (by decide)⟩

/-- C8 counterexample: on a reply whose Action Input "hello world" is not
valid JSON, the engine's parser (_parseReActResponse in the engine's
ToolCallingService.js, the one the ExecutionEngine dispatches through)
passes the raw trimmed STRING as the tool input — not the claimed wrapped
object, which only the unnamed variant's _parseResponse produces. -/
theorem react_raw_input_not_wrapped :
    parseReActResponse jsonParseLite replyRawInput =
      ReStep.action "mytool" (Val.vstr "hello world") replyRawInput ∧
    (parseResponseVariant jsonParseLite replyRawInput).actionInput =
      some (Val.vobj [("input", Val.vstr "hello world")]) ∧
    jsonParseLite ("hello world".data) = none ∧
    Val.vstr "hello world" ≠ Val.vobj [("input", Val.vstr "hello world")] :=
  ⟨rfl, rfl, rfl, fun h => Val.noConfusion h⟩

/-- C8 (amended): when no Final Answer line is present, the Action line
captures a name and the Action Input capture is not valid JSON, both
parsers fall back from JSON — but the engine parser yields the raw trimmed
text as a plain string, while only the unnamed variant wraps it as the
object with single key "input". The claim's wrapped-object behavior holds
for the variant only. -/
theorem react_parse_contract (jp : List Char → Option Val) (text : String)
    (name raw : List Char)
    (hfa : finalAnswerMatch text = none)
    (hac : matchPrefixLine ("Action:".data) text = some name)
    (hin : matchPrefixLine ("Action Input:".data) text = some raw)
    (hjp : jp raw = none) :
    parseReActResponse jp text =
      ReStep.action (String.mk name) (Val.vstr (String.mk raw)) text ∧
    (parseResponseVariant jp text).actionInput =
      some (Val.vobj [("input", Val.vstr (String.mk raw))]) := by
  constructor
  · simp only [parseReActResponse, hfa, hac, hin, hjp]
  · simp only [parseResponseVariant, hfa, hac, hin, hjp]

/-- C8 witness: the contract instantiated with the small JSON oracle on the
concrete raw-text reply. -/
theorem react_parse_contract_witness :
    (finalAnswerMatch replyRawInput = none ∧
      matchPrefixLine ("Action:".data) replyRawInput = some ("mytool".data) ∧
      matchPrefixLine ("Action Input:".data) replyRawInput =
        some ("hello world".data) ∧
      jsonParseLite ("hello world".data) = none) ∧
    (parseReActResponse jsonParseLite replyRawInput =
        ReStep.action (String.mk ("mytool".data))
          (Val.vstr (String.mk ("hello world".data))) replyRawInput ∧
      (parseResponseVariant jsonParseLite replyRawInput).actionInput =
        some (Val.vobj [("input", Val.vstr (String.mk ("hello world".data)))])) :=
  ⟨⟨rfl, rfl, rfl, rfl⟩,
    react_parse_contract jsonParseLite replyRawInput ("mytool".data)
      ("hello world".data) rfl rfl rfl rfl⟩

end Iosans
